import Mathlib

/-!
Verification of the EFG Kirchheim WiFi automation repository
(`efg_automation.py`, `efg_o365.py`, `efg_wifi_automation.py`).

Python strings are modelled as `List Char` (`PyStr`).  `str.lower`,
`str.upper` and `str.strip` are modelled with `Char.toLower` /
`Char.toUpper` and the ASCII whitespace set — the inputs handled by the
program (MAC addresses, WiFi SSIDs, task titles) are ASCII.  Python's
`str.split`, `str.startswith` and `file.readlines` are modelled by
executable functions below with the same semantics.
-/
abbrev PyStr := List Char

/-- Python `s.lower()`. -/
def pyLower (s : PyStr) : PyStr := s.map Char.toLower

/-- Python `s.upper()`. -/
def pyUpper (s : PyStr) : PyStr := s.map Char.toUpper

/-- Python whitespace characters (ASCII subset stripped by `str.strip()`). -/
def isPyWs (c : Char) : Bool := c = ' ' || c = '\t' || c = '\n' || c = '\r' || c = '\x0b' || c = '\x0c'

/-- Drop trailing whitespace, second half of Python `str.strip()`. -/
def dropTrailWs (s : PyStr) : PyStr := (s.reverse.dropWhile isPyWs).reverse

/-- Python `s.strip()`. -/
def pyStrip (s : PyStr) : PyStr := dropTrailWs (s.dropWhile isPyWs)

/-- Python `s.split(sep)` for a one-character separator `sep`. -/
def splitChar (sep : Char) : PyStr → List PyStr
  | [] => [[]]
  | c :: r =>
    if c = sep then [] :: splitChar sep r
    else
      match splitChar sep r with
      | [] => [[c]]
      | p :: ps => (c :: p) :: ps

/-- Worker for `splitSeq`; `fuel` bounds the recursion depth so the
definition is structural (at least the length of the string). -/
def splitSeqAux (sep : PyStr) : Nat → PyStr → List PyStr
  | _, [] => [[]]
  | 0, l => [l]
  | fuel + 1, c :: r =>
    if sep.isPrefixOf (c :: r) && !sep.isEmpty then
      [] :: splitSeqAux sep fuel (List.drop (sep.length - 1) r)
    else
      match splitSeqAux sep fuel r with
      | [] => [[c]]
      | p :: ps => (c :: p) :: ps

/-- Python `s.split(sep)` for a multi-character separator `sep`
(left-to-right, non-overlapping occurrences). -/
def splitSeq (sep s : PyStr) : List PyStr := splitSeqAux sep s.length s

/-- Python `f.readlines()`: split the file contents into lines, every
line keeps its trailing newline; a final fragment without a newline is
returned as well; the empty file gives no lines. -/
def pyReadlines : PyStr → List PyStr
  | [] => []
  | c :: r =>
    if c = '\n' then ['\n'] :: pyReadlines r
    else
      match pyReadlines r with
      | [] => [[c]]
      | p :: ps => (c :: p) :: ps

/-! ### MAC Validator (`pyunifi_WiFi_Controller._validate_mac_filter_list`)

The source checks each entry `m` with
`re.match("[0-9a-f]{2}([:]?)[0-9a-f]{2}(\1[0-9a-f]{2}){4}$", m.lower())`.
`macRegexMatch` embeds this regex.  The optional captured separator
`([:]?)` tries `":"` first and backtracks to `""`, which for a boolean
result is exactly the disjunction of the two alternatives; Python's `$`
matches at the end of the string or just before one trailing newline
(`atEndPy`). -/
def isLowerHexDigit (c : Char) : Bool :=
  (decide ('0' ≤ c) && decide (c ≤ '9')) || (decide ('a' ≤ c) && decide (c ≤ 'f'))

/-- Python's `$` anchor: end of string, or just before a final newline. -/
def atEndPy : PyStr → Bool
  | [] => true
  | [c] => c = '\n'
  | _ => false

/-- `([0-9a-f]{2}){n}$` -/
def hexTail : Nat → PyStr → Bool
  | 0, r => atEndPy r
  | n + 1, a :: b :: r => isLowerHexDigit a && isLowerHexDigit b && hexTail n r
  | _ + 1, [] => false
  | _ + 1, [_] => false

/-- `(:[0-9a-f]{2}){n}$` -/
def colonHexTail : Nat → PyStr → Bool
  | 0, r => atEndPy r
  | n + 1, s :: a :: b :: r => s = ':' && isLowerHexDigit a && isLowerHexDigit b && colonHexTail n r
  | _ + 1, [] => false
  | _ + 1, [_] => false
  | _ + 1, [_, _] => false

/-- `re.match("[0-9a-f]{2}([:]?)[0-9a-f]{2}(\1[0-9a-f]{2}){4}$", cs)`. -/
def macRegexMatch : PyStr → Bool
  | a :: b :: r => isLowerHexDigit a && isLowerHexDigit b && (colonHexTail 5 r || hexTail 5 r)
  | [] => false
  | [_] => false

/-- Acceptance of one MAC entry by `_validate_mac_filter_list` (the
regex is applied to `m.lower()`). -/
def validate_mac (m : PyStr) : Bool := macRegexMatch (pyLower m)

/-- `_validate_mac_filter_list`: raises `ValueError` at the first entry
the regex rejects. -/
def validate_mac_filter_list : List PyStr → Except String Unit
  | [] => .ok ()
  | m :: r =>
    if validate_mac m then validate_mac_filter_list r
    else .error "ValueError: invalid MAC address"

/-! Specification-side definition, for the refinement claim C6.
Modelled from the spec: "six groups of two hexadecimal digits joined by
a single uniform separator: either all five separators are `:` or all
five are absent". -/
def specSixGroupsColon : PyStr → Bool
  | [a1, a2, s1, b1, b2, s2, c1, c2, s3, d1, d2, s4, e1, e2, s5, f1, f2] =>
    (s1 = ':' && s2 = ':' && s3 = ':' && s4 = ':' && s5 = ':') &&
      [a1, a2, b1, b2, c1, c2, d1, d2, e1, e2, f1, f2].all isLowerHexDigit
  | _ => false

def specSixGroupsPlain : PyStr → Bool
  | [a1, a2, b1, b2, c1, c2, d1, d2, e1, e2, f1, f2] =>
    [a1, a2, b1, b2, c1, c2, d1, d2, e1, e2, f1, f2].all isLowerHexDigit
  | _ => false

/-- The claim's shape: six two-hex-digit groups with a uniform
separator, all-`:` or absent. -/
def specUniformSep (cs : PyStr) : Bool := specSixGroupsColon cs || specSixGroupsPlain cs

/-! ### Filter Client (`pyunifi_WiFi_Controller`), per-network filter list

The controller state for one WiFi network is its `mac_filter_list`,
a list of strings.  `set_wifi_mac_filter_list` validates the whole list
first and only then overwrites it; `add`/`remove` are read-modify-write
and skip the write when the list already is in the desired state.  The
returned `Bool` records whether a write (`set_wifi_mac_filter_list`)
was issued. -/
def get_current_mac_filter_list (s : List PyStr) : List PyStr := s.map pyLower

def add_mac_to_mac_filter (s : List PyStr) (mac_address : PyStr) :
    Except String (List PyStr × Bool) :=
  let mac_address_list := get_current_mac_filter_list s
  if pyLower mac_address ∉ mac_address_list then
    let mac_address_list := mac_address_list ++ [pyLower mac_address]
    match validate_mac_filter_list mac_address_list with
    | .error e => .error e
    | .ok _ => .ok (mac_address_list, true)
  else
    .ok (s, false)

def remove_mac_from_mac_filter (s : List PyStr) (mac_address : PyStr) :
    Except String (List PyStr × Bool) :=
  let mac_address_list := get_current_mac_filter_list s
  if pyLower mac_address ∈ mac_address_list then
    let mac_address_list := mac_address_list.erase (pyLower mac_address)
    match validate_mac_filter_list mac_address_list with
    | .error e => .error e
    | .ok _ => .ok (mac_address_list, true)
  else
    .ok (s, false)

/-! ### Association lists with Python `dict` semantics

Python dictionaries preserve insertion order: setting an existing key
updates it in place, a new key is appended at the end.  `alookup`,
`aset`, `aupd` and `adel` model `d[k]`, `d[k] = v`, in-place value
mutation and `del d[k]`. -/
def alookup {β : Type} (k : PyStr) : List (PyStr × β) → Option β
  | [] => none
  | (k1, v) :: r => if k1 = k then some v else alookup k r

def aset {β : Type} (k : PyStr) (v : β) : List (PyStr × β) → List (PyStr × β)
  | [] => [(k, v)]
  | (k1, v1) :: r => if k1 = k then (k1, v) :: r else (k1, v1) :: aset k v r

def aupd {β : Type} (k : PyStr) (f : β → β) : List (PyStr × β) → List (PyStr × β)
  | [] => []
  | (k1, v1) :: r => if k1 = k then (k1, f v1) :: r else (k1, v1) :: aupd k f r

def adel {β : Type} (k : PyStr) : List (PyStr × β) → List (PyStr × β)
  | [] => []
  | (k1, v1) :: r => if k1 = k then r else (k1, v1) :: adel k r

/-- Python `list.remove(x)`: removes the first occurrence, raises
`ValueError` when `x` is not in the list. -/
def pyListRemove (x : PyStr) : List PyStr → Except String (List PyStr)
  | [] => .error "ValueError: list.remove(x): x not in list"
  | y :: r =>
    if y = x then .ok r
    else
      match pyListRemove x r with
      | .error e => .error e
      | .ok r1 => .ok (y :: r1)

/-! ### Backup Store (`EFGMACFile`)

State: `mac_address_list` maps a WiFi name to the simple list of MACs,
`mac_address_list_extended` maps a WiFi name to a MAC → comment dict.
(The Python attribute `mac_address_list` is a dict despite its name.) -/
structure EFGMACFile where
  mac_address_list : List (PyStr × List PyStr)
  mac_address_list_extended : List (PyStr × List (PyStr × PyStr))
deriving Repr, DecidableEq

/-- The `if key not in d.keys(): d[key] = v0` initialisation pattern
used before every per-WiFi update. -/
def ensureKey {b : Type} (k : PyStr) (v0 : b) (l : List (PyStr × b)) : List (PyStr × b) :=
  if (alookup k l).isNone then aset k v0 l else l

/-- The state update at the end of one loop iteration of
`EFGMACFile._process_macfile` (and the same `if wifi_name not in ...:`
initialisation pattern used by `EFGMACFile.add_mac`): ensure the
WiFi-name key exists in both dicts, append the MAC to the simple list,
and set the MAC's comment in the extended dict. -/
def recordEntry (st : EFGMACFile) (wifi_name mac_address comment : PyStr) : EFGMACFile :=
  { mac_address_list :=
      aupd wifi_name (fun ms => ms ++ [mac_address])
        (ensureKey wifi_name [] st.mac_address_list),
    mac_address_list_extended :=
      aupd wifi_name (aset mac_address comment)
        (ensureKey wifi_name [] st.mac_address_list_extended) }

/-- One iteration of the line loop of `EFGMACFile._process_macfile`:
skip the empty string (dead: `readlines` never yields it) and lines starting with
`#`; split off the inline comment on `#` (`parts`), strip the data part
and split it on `;` into MAC (`[0]`) and WiFi name (`[1]` — raises
`IndexError` when the separator is missing, as does `parts[1]` when the
line has no `#`; Python computes the WiFi name first), then record the
entry in both structures. -/
def processMacLine (st : EFGMACFile) (l : PyStr) : Except String EFGMACFile :=
  if l = [] then .ok st
  else if ['#'].isPrefixOf l then .ok st
  else
    match (splitChar ';' (pyStrip (splitChar '#' l).headI)).get? 1,
        (splitChar '#' l).get? 1 with
    | none, _ => .error "IndexError: list index out of range"
    | some _, none => .error "IndexError: list index out of range"
    | some w, some cpart =>
      .ok (recordEntry st (pyStrip w)
        (pyStrip (splitChar ';' (pyStrip (splitChar '#' l).headI)).headI)
        (pyStrip cpart))

def processLines : EFGMACFile → List PyStr → Except String EFGMACFile
  | st, [] => .ok st
  | st, l :: ls =>
    match processMacLine st l with
    | .error e => .error e
    | .ok st1 => processLines st1 ls

/-- `EFGMACFile._process_macfile`, applied to the file contents. -/
def process_macfile (contents : PyStr) : Except String EFGMACFile :=
  processLines ⟨[], []⟩ (pyReadlines contents)

/-- The file header prepended by `EFGMACFile.write_macfile`, given as
its list of lines (each line of the Python triple-quoted string ends
with a newline and starts with `#`). -/
def macfileHeaderLines : List PyStr :=
  [ "# -----------------------------------------------------------------------------\n".data,
    "# MAC address file\n".data,
    "#  * MAC addresses must have the format hh:hh:hh:hh:hh:hh\n".data,
    "#  * MAC addresses must start in col 1, one MAC per line\n".data,
    "#  * then - separated with a semicolon - the WiFi name (SSID) has to follow\n".data,
    "#  * line comments are allowed (starting with a # in col 1)\n".data,
    "#  * inline comments (after the MAC, separated with a #) are allowed as well\n".data,
    "#  * all comments will be removed during processing\n".data,
    "# -----------------------------------------------------------------------------\n".data ]

/-- One data line as formatted by the write loop: the lower-cased MAC,
a semicolon, the WiFi name, three spaces, the inline comment marker
with the comment, and a newline. -/
def renderEntryLine (wifi_name mac_address comment : PyStr) : PyStr :=
  pyLower mac_address ++ ';' :: (wifi_name ++ "   # ".data ++ comment ++ ['\n'])

def linesOfExt : List (PyStr × List (PyStr × PyStr)) → List PyStr
  | [] => []
  | (w, ms) :: r => ms.map (fun q => renderEntryLine w q.1 q.2) ++ linesOfExt r

/-- `EFGMACFile.write_macfile`: the contents written to disk — the
header followed by one line per extended-dict entry, iterated in dict
order. -/
def write_macfile (st : EFGMACFile) : PyStr :=
  (macfileHeaderLines ++ linesOfExt st.mac_address_list_extended).flatten

/-- `EFGMACFile.add_mac`: ensure the WiFi-name key exists in both
dicts, append `mac_address.lower()` to the simple list if not yet
present, and set its comment in the extended dict. -/
def EFGMACFile.add_mac (st : EFGMACFile) (mac_address wifi_name comment : PyStr) : EFGMACFile :=
  { mac_address_list :=
      if pyLower mac_address ∉
          (alookup wifi_name (ensureKey wifi_name [] st.mac_address_list)).getD [] then
        aupd wifi_name (fun ms => ms ++ [pyLower mac_address])
          (ensureKey wifi_name [] st.mac_address_list)
      else ensureKey wifi_name [] st.mac_address_list,
    mac_address_list_extended :=
      aupd wifi_name (aset (pyLower mac_address) comment)
        (ensureKey wifi_name [] st.mac_address_list_extended) }

/-- `EFGMACFile.remove_mac`.  NOTE: the first guard is the source's
inverted `if mac_address.lower() not in self.mac_address_list[wifi_name]`
before `list.remove`, kept faithfully. -/
def EFGMACFile.remove_mac (st : EFGMACFile) (mac_address wifi_name : PyStr) :
    Except String EFGMACFile :=
  let simpleE : Except String (List (PyStr × List PyStr)) :=
    match alookup wifi_name st.mac_address_list with
    | some ms =>
      if pyLower mac_address ∉ ms then
        match pyListRemove (pyLower mac_address) ms with
        | .error e => .error e
        | .ok ms1 => .ok (aupd wifi_name (fun _ => ms1) st.mac_address_list)
      else .ok st.mac_address_list
    | none => .ok st.mac_address_list
  match simpleE with
  | .error e => .error e
  | .ok simple =>
    let ext :=
      match alookup wifi_name st.mac_address_list_extended with
      | some mm =>
        if (alookup (pyLower mac_address) mm).isSome then
          aupd wifi_name (fun _ => adel (pyLower mac_address) mm) st.mac_address_list_extended
        else st.mac_address_list_extended
      | none => st.mac_address_list_extended
    .ok { mac_address_list := simple, mac_address_list_extended := ext }

/-- `EFGMACFile.get_mac_list_for_wifi_name` (raises `KeyError` when the
WiFi name is unknown). -/
def EFGMACFile.get_mac_list_for_wifi_name (st : EFGMACFile) (wifi_name : PyStr) :
    Except String (List PyStr) :=
  match alookup wifi_name st.mac_address_list with
  | some ms => .ok ms
  | none => .error "KeyError"

/-! ### Task Source (`ManageEFGWiFiPlannerTasks`, `EFGTask`, `EFGTaskDetail`)

A raw Planner task record carries the fields the filtering and decoding
read: `planId`, `percentComplete`, `title`, and the task detail's
`description`. -/
structure RawTask where
  id : PyStr
  planId : PyStr
  percentComplete : Nat
  title : PyStr
  description : PyStr
deriving Repr, DecidableEq

/-- The title filter of `get_all_open_EFGWiFiAutomation_planner_tasks`:
`task.title.lower().startswith('addmac') or
 task.title.lower().startswith('delmac')`. -/
def titleIsMacCommand (title : PyStr) : Bool :=
  "addmac".data.isPrefixOf (pyLower title) || "delmac".data.isPrefixOf (pyLower title)

/-- Eligibility of a raw task for the automation loop: plan id matches
the configured `wifi_automation_plan_id`, not completed, and the title
starts with a MAC command. -/
def taskEligible (planCfg : PyStr) (t : RawTask) : Bool :=
  t.planId = planCfg && t.percentComplete ≠ 100 && titleIsMacCommand t.title

/-- `EFGTask.get_efg_parts_from_task`: split the title on `' - '`;
`[0].strip().lower()` is the command, `[1].strip()` the comment,
`[2].strip()` the WiFi name; a missing field raises `IndexError`. -/
def get_efg_parts_from_task (title : PyStr) :
    Except String (PyStr × PyStr × PyStr) :=
  match (splitSeq " - ".data title).get? 0, (splitSeq " - ".data title).get? 1,
      (splitSeq " - ".data title).get? 2 with
  | some f0, some f1, some f2 =>
    .ok (pyLower (pyStrip f0), pyStrip f1, pyStrip f2)
  | _, _, _ => .error "IndexError: list index out of range"

/-- `EFGTaskDetail.get_efg__parts_from_task_details`: split the
description on `#`; `[0].strip()` is the flow number, `[1].strip()` the
MAC address. -/
def get_efg_parts_from_task_details (description : PyStr) :
    Except String (PyStr × PyStr) :=
  let fields := splitChar '#' description
  match fields.get? 0, fields.get? 1 with
  | some f0, some f1 => .ok (pyStrip f0, pyStrip f1)
  | _, _ => .error "IndexError: list index out of range"

/-- A task as it leaves the Task Source, with all EFG fields decoded. -/
structure EFGOpenTask where
  id : PyStr
  efg_mac_command : PyStr
  efg_mac_comment : PyStr
  efg_wifi_name : PyStr
  efg_flow_number : PyStr
  efg_mac_address : PyStr
deriving Repr, DecidableEq

/-- Decoding of one eligible task (title parts, then description
parts), as performed inside the task loop. -/
def decodeTask (t : RawTask) : Except String EFGOpenTask :=
  match get_efg_parts_from_task t.title with
  | .error e => .error e
  | .ok (cmd, com, wifi) =>
    match get_efg_parts_from_task_details t.description with
    | .error e => .error e
    | .ok (flow, mac) => .ok ⟨t.id, cmd, com, wifi, flow, mac⟩

def getAllOpenAux (planCfg : PyStr) (acc : List EFGOpenTask) :
    List RawTask → Except String (List EFGOpenTask)
  | [] => .ok acc
  | t :: ts =>
    if t.planId ≠ planCfg then getAllOpenAux planCfg acc ts
    else if t.percentComplete = 100 then getAllOpenAux planCfg acc ts
    else if ¬ titleIsMacCommand t.title then getAllOpenAux planCfg acc ts
    else
      match decodeTask t with
      | .error e => .error e
      | .ok d => getAllOpenAux planCfg (acc ++ [d]) ts

/-- `ManageEFGWiFiPlannerTasks.get_all_open_EFGWiFiAutomation_planner_tasks`
on the raw task list returned by `planner.get_my_tasks()` (fresh
instance, `self.open_tasks` starts empty). -/
def get_all_open_EFGWiFiAutomation_planner_tasks (planCfg : PyStr) (tasks : List RawTask) :
    Except String (List EFGOpenTask) :=
  getAllOpenAux planCfg [] tasks

/-! ### Reconciliation Engine (`Manage_MACFilter`, `EFGAutomation`)

The environment state holds the controller's per-network filter lists,
the in-memory backup store, and the set of task ids marked completed
upstream.  `markDoneFails` on a task models the PATCH with the
`If-Match` etag failing (concurrent modification). -/
structure EngTask where
  id : PyStr
  efg_mac_command : PyStr
  efg_wifi_name : PyStr
  efg_mac_address : PyStr
  efg_mac_comment : PyStr
  markDoneFails : Bool
deriving Repr, DecidableEq

structure AutomationConfig where
  update_mac_file_on_add_remove : Bool
  send_msteams_status_messages : Bool
deriving Repr, DecidableEq

structure EnvState where
  filters : List (PyStr × List PyStr)
  backup : EFGMACFile
  completed : List PyStr
deriving Repr, DecidableEq

/-- Controller-level add on the multi-network state:
`get_wifi_id_by_name` raises when the WiFi name is unknown, then
`pyunifi_WiFi_Controller.add_mac_to_mac_filter` runs on that network's
list. -/
def ctrlAdd (fs : List (PyStr × List PyStr)) (wifi_name mac : PyStr) :
    Except String (List (PyStr × List PyStr)) :=
  match alookup wifi_name fs with
  | none => .error "ValueError: no WiFi with this name (SSID) found"
  | some l =>
    match add_mac_to_mac_filter l mac with
    | .error e => .error e
    | .ok (l1, _) => .ok (aset wifi_name l1 fs)

def ctrlRemove (fs : List (PyStr × List PyStr)) (wifi_name mac : PyStr) :
    Except String (List (PyStr × List PyStr)) :=
  match alookup wifi_name fs with
  | none => .error "ValueError: no WiFi with this name (SSID) found"
  | some l =>
    match remove_mac_from_mac_filter l mac with
    | .error e => .error e
    | .ok (l1, _) => .ok (aset wifi_name l1 fs)

/-- `Manage_MACFilter.add_mac_to_mac_filter`: controller first, then —
if `update_mac_file_on_add_remove` — the backup file. -/
def manageAddMac (cfg : AutomationConfig) (env : EnvState) (wifi_name mac comment : PyStr) :
    Except String EnvState :=
  match ctrlAdd env.filters wifi_name mac with
  | .error e => .error e
  | .ok fs1 =>
    if cfg.update_mac_file_on_add_remove then
      .ok { env with filters := fs1, backup := env.backup.add_mac mac wifi_name comment }
    else .ok { env with filters := fs1 }

/-- `Manage_MACFilter.remove_mac_from_mac_filter`. -/
def manageRemoveMac (cfg : AutomationConfig) (env : EnvState) (wifi_name mac : PyStr) :
    Except String EnvState :=
  match ctrlRemove env.filters wifi_name mac with
  | .error e => .error e
  | .ok fs1 =>
    if cfg.update_mac_file_on_add_remove then
      match env.backup.remove_mac mac wifi_name with
      | .error e => .error e
      | .ok b1 => .ok { env with filters := fs1, backup := b1 }
    else .ok { env with filters := fs1 }

/-- The dispatch on `task.efg_mac_command` inside
`EFGAutomation.process_wifi_mac_tasks` (the defensive `else` raises
`ValueError`). -/
def applyTask (cfg : AutomationConfig) (env : EnvState) (t : EngTask) :
    Except String EnvState :=
  if t.efg_mac_command = "addmac".data then
    manageAddMac cfg env t.efg_wifi_name t.efg_mac_address t.efg_mac_comment
  else if t.efg_mac_command = "delmac".data then
    manageRemoveMac cfg env t.efg_wifi_name t.efg_mac_address
  else .error "ValueError: efg_mac_command is invalid"

/-- `EFGTask.set_task_completed`: PATCH `percentComplete = 100` with an
`If-Match` etag; fails when the task changed concurrently. -/
def setTaskCompleted (env : EnvState) (t : EngTask) : Except String EnvState :=
  if t.markDoneFails then .error "ConcurrentModification"
  else .ok { env with completed := env.completed ++ [t.id] }

/-- The task loop of `EFGAutomation.process_wifi_mac_tasks`; on an
exception the loop stops, carrying the state reached so far. -/
def runLoop (cfg : AutomationConfig) : EnvState → Nat → List EngTask →
    Except (String × EnvState) (EnvState × Nat)
  | env, i, [] => .ok (env, i)
  | env, i, t :: ts =>
    match applyTask cfg env t with
    | .error e => .error (e, env)
    | .ok env1 =>
      match setTaskCompleted env1 t with
      | .error e => .error (e, env1)
      | .ok env2 => runLoop cfg env2 (i + 1) ts

/-- The status message built after a clean loop. -/
def statusText (i : Nat) : PyStr :=
  if i = 0 then "No open WiFi MAC tasks found...".data
  else ("processed " ++ toString i ++ " WiFi MAC tasks...").data

/-- Outcome of one run of the wrapper `process_wifi_mac_tasks(args)`:
final state, the info notification (if any), and whether the error
notification was sent. -/
structure RunOutcome where
  env : EnvState
  statusMessage : Option PyStr
  errorSent : Bool
deriving Repr, DecidableEq

/-- `EFGAutomation.process_wifi_mac_tasks` under its top-level wrapper:
a clean loop sends the status message (when configured); an exception
anywhere in the loop aborts it, sends the error notification instead,
and performs no rollback. -/
def process_wifi_mac_tasks (cfg : AutomationConfig) (env : EnvState) (tasks : List EngTask) :
    RunOutcome :=
  match runLoop cfg env 0 tasks with
  | .error (_, envE) => { env := envE, statusMessage := none, errorSent := true }
  | .ok (env1, i) =>
    { env := env1,
      statusMessage := if cfg.send_msteams_status_messages then some (statusText i) else none,
      errorSent := false }

/-- Decoding of a task list in order, propagating the first failure
(the specification-side reading of "returns exactly those tasks"). -/
def decodeAll : List RawTask → Except String (List EFGOpenTask)
  | [] => .ok []
  | t :: ts =>
    match decodeTask t with
    | .error e => .error e
    | .ok d =>
      match decodeAll ts with
      | .error e => .error e
      | .ok l => .ok (d :: l)

/-! ### C6: characterizing the MAC regex -/
/-- `n` repetitions of `:hh`. -/
def ColonChunks : Nat → PyStr → Prop
  | 0, g => g = []
  | n + 1, g => ∃ a b g1, g = ':' :: a :: b :: g1 ∧ isLowerHexDigit a = true ∧
      isLowerHexDigit b = true ∧ ColonChunks n g1

/-- `n` repetitions of `hh`. -/
def HexChunks : Nat → PyStr → Prop
  | 0, g => g = []
  | n + 1, g => ∃ a b g1, g = a :: b :: g1 ∧ isLowerHexDigit a = true ∧
      isLowerHexDigit b = true ∧ HexChunks n g1

/-! Well-formedness of the fields stored in the Backup Store, needed
for the round trip: no `#`, `;` or newline in MACs and WiFi names, no
`#` or newline in comments, and no surrounding whitespace anywhere
(`strip` must not alter the field). -/
def stripInv (s : PyStr) : Bool :=
  (s.head?.all fun c => !isPyWs c) && (s.getLast?.all fun c => !isPyWs c)

def goodName (s : PyStr) : Bool :=
  s.all (fun c => !(c = '#') && !(c = ';') && !(c = '\n')) && stripInv s

def goodComment (s : PyStr) : Bool :=
  s.all (fun c => !(c = '#') && !(c = '\n')) && stripInv s

/-! ### C7: association-list lemmas and the rebuild induction -/
def keysOf {b : Type} (l : List (PyStr × b)) : List PyStr := l.map Prod.fst

/-! ### C7: the states built by `add_mac` are well formed -/
/-- Well-formedness of the extended dict: unique WiFi keys, nonempty
groups with unique MAC keys, and every stored field good for the round
trip (MACs stored lower-cased). -/
def WfExt (ext : List (PyStr × List (PyStr × PyStr))) : Prop :=
  (keysOf ext).Nodup ∧
  ∀ p ∈ ext, goodName p.1 = true ∧ p.2 ≠ [] ∧ (keysOf p.2).Nodup ∧
    ∀ q ∈ p.2, goodName q.1 = true ∧ pyLower q.1 = q.1 ∧ goodComment q.2 = true

/-! ### C7: the round-trip theorem -/
/-- Adding a list of `(mac, wifi, comment)` triples to a fresh Backup
Store via `EFGMACFile.add_mac`, in order. -/
def addAll (ts : List (PyStr × PyStr × PyStr)) : EFGMACFile :=
  ts.foldl (fun st t => st.add_mac t.1 t.2.1 t.2.2) ⟨[], []⟩

/-! ### Character-level facts about `lower`/`upper` -/
theorem Char.toNat_ofNat_of_lt {n : Nat} (h : n < 55296) : (Char.ofNat n).toNat = n := by
  rw [Char.ofNat, dif_pos (Or.inl h)]
  rfl

theorem Char.toNat_toLower (c : Char) :
    c.toLower.toNat = if 65 ≤ c.toNat ∧ c.toNat ≤ 90 then c.toNat + 32 else c.toNat := by
  simp only [Char.toLower]
  split
  · next h => rw [Char.toNat_ofNat_of_lt (by omega)]
  · rfl

theorem Char.toNat_toUpper (c : Char) :
    c.toUpper.toNat = if 97 ≤ c.toNat ∧ c.toNat ≤ 122 then c.toNat - 32 else c.toNat := by
  simp only [Char.toUpper]
  split
  · next h => rw [Char.toNat_ofNat_of_lt (by omega)]
  · rfl

theorem Char.eq_of_toNat_eq {c d : Char} (h : c.toNat = d.toNat) : c = d := by
  apply Char.ext
  exact UInt32.eq_of_toBitVec_eq (BitVec.eq_of_toNat_eq h)

theorem Char.toLower_toUpper (c : Char) : c.toUpper.toLower = c.toLower := by
  apply Char.eq_of_toNat_eq
  rw [Char.toNat_toLower, Char.toNat_toLower, Char.toNat_toUpper]
  repeat' split
  all_goals omega

theorem Char.toLower_toLower (c : Char) : c.toLower.toLower = c.toLower := by
  apply Char.eq_of_toNat_eq
  rw [Char.toNat_toLower, Char.toNat_toLower]
  repeat' split
  all_goals omega

/-- `toLower` fixes every character outside the `A`-`Z` range; in
particular it fixes `#`, `;`, `:` and all whitespace. -/
theorem Char.toLower_eq_self_of_toNat_lt {c : Char} (h : c.toNat < 65) : c.toLower = c := by
  apply Char.eq_of_toNat_eq
  rw [Char.toNat_toLower, if_neg (by omega)]

theorem Char.toLower_eq_iff_of_toNat_lt {c : Char} {d : Char} (hd : d.toNat < 65) :
    c.toLower = d ↔ c = d := by
  constructor
  · intro h
    apply Char.eq_of_toNat_eq
    have := congrArg Char.toNat h
    rw [Char.toNat_toLower] at this
    split at this <;> omega
  · rintro rfl; exact Char.toLower_eq_self_of_toNat_lt hd

theorem isPyWs_toLower (c : Char) : isPyWs c.toLower = isPyWs c := by
  simp only [isPyWs]
  by_cases h : 65 ≤ c.toNat ∧ c.toNat ≤ 90
  · have hl : c.toLower.toNat = c.toNat + 32 := by rw [Char.toNat_toLower, if_pos h]
    have hfalse : ∀ d : Char, 65 ≤ d.toNat → d.toNat ≤ 122 →
        (decide (d = ' ') || decide (d = '\t') || decide (d = '\n') || decide (d = '\r') ||
         decide (d = '\x0b') || decide (d = '\x0c')) = false := by
      intro d h1 h2
      have hne : ∀ e : Char, e.toNat < 65 → d ≠ e := by
        intro e he hcontra; subst hcontra; omega
      simp [hne ' ' (by decide), hne '\t' (by decide), hne '\n' (by decide),
        hne '\r' (by decide), hne '\x0b' (by decide), hne '\x0c' (by decide)]
    rw [hfalse c.toLower (by omega) (by omega), hfalse c (by omega) (by omega)]
  · have : c.toLower = c := by
      apply Char.eq_of_toNat_eq; rw [Char.toNat_toLower, if_neg h]
    rw [this]

theorem pyLower_pyUpper (s : PyStr) : pyLower (pyUpper s) = pyLower s := by
  simp [pyLower, pyUpper, Function.comp_def, Char.toLower_toUpper]

theorem pyLower_pyLower (s : PyStr) : pyLower (pyLower s) = pyLower s := by
  simp [pyLower, Function.comp_def, Char.toLower_toLower]

/-! ## Claims -/
/-- C3: the claim says `remove` deletes `(network, mac)` if present, is
a silent no-op when the MAC is absent, and leaves the MAC absent from
the per-network MAC list.  The code's guard before `list.remove` is
inverted (`if mac not in list: list.remove(mac)`), so removing an
absent MAC raises `ValueError` from `list.remove` instead of being a
silent no-op: the claim describes the documented intent, the code is a
slip.  This theorem evaluates the code at the failing input. -/
theorem c3_remove_absent_mac_raises :
    EFGMACFile.remove_mac
      ⟨[("Guest".data, ["aa:bb:cc:dd:ee:ff".data])],
       [("Guest".data, [("aa:bb:cc:dd:ee:ff".data, "John Doe".data)])]⟩
      "bb:bb:bb:bb:bb:bb".data "Guest".data =
    .error "ValueError: list.remove(x): x not in list" := rfl

/-- C10: the claim says every Backup Store operation keeps the simple
per-network MAC list in sync with the keys of the extended dict, and a
removed MAC is absent from both.  The inverted guard in
`EFGMACFile.remove_mac` means a present MAC is deleted from the
extended dict but stays in the simple list: the operation succeeds and
breaks the invariant the docstring promises ("remove a MAC from both
the simple list and the extended dict").  Evaluation at the failing
input. -/
theorem c10_remove_breaks_sync :
    ∃ st1,
      EFGMACFile.remove_mac
        ⟨[("Guest".data, ["aa:bb:cc:dd:ee:ff".data])],
         [("Guest".data, [("aa:bb:cc:dd:ee:ff".data, "John Doe".data)])]⟩
        "aa:bb:cc:dd:ee:ff".data "Guest".data = .ok st1 ∧
      "aa:bb:cc:dd:ee:ff".data ∈ (alookup "Guest".data st1.mac_address_list).getD [] ∧
      alookup "aa:bb:cc:dd:ee:ff".data
        ((alookup "Guest".data st1.mac_address_list_extended).getD []) = none := by
  refine ⟨⟨[("Guest".data, ["aa:bb:cc:dd:ee:ff".data])], [("Guest".data, [])]⟩, rfl, ?_, rfl⟩
  simp [alookup]

/-- C8: the claim says loading skips every blank line without error.
`readlines` returns a blank line with its newline kept, which the dead
empty-string guard does not catch; the line is then parsed, its data part
strips to the empty string, and the `[1]` after the `;`-split raises
`IndexError` — even though the identical file without the blank line
loads fine.  The code contradicts its own comment
("ignore empty / blank lines"). -/
theorem c8_blank_line_raises :
    (∃ st, process_macfile "aa:bb:cc:dd:ee:ff;Guest   # John\n".data = .ok st) ∧
    process_macfile "aa:bb:cc:dd:ee:ff;Guest   # John\n\n".data =
      .error "IndexError: list index out of range" := by
  exact ⟨⟨⟨[("Guest".data, ["aa:bb:cc:dd:ee:ff".data])],
          [("Guest".data, [("aa:bb:cc:dd:ee:ff".data, "John".data)])]⟩, rfl⟩, rfl⟩

/-- The task loop of `get_all_open_EFGWiFiAutomation_planner_tasks` is
the filter by eligibility followed by decoding of each survivor, with
the first decode failure propagated. -/
theorem getAllOpenAux_eq (planCfg : PyStr) (acc : List EFGOpenTask) (ts : List RawTask) :
    getAllOpenAux planCfg acc ts =
      match decodeAll (ts.filter (taskEligible planCfg)) with
      | .ok l => .ok (acc ++ l)
      | .error e => .error e := by
  induction ts generalizing acc with
  | nil => simp [decodeAll, getAllOpenAux]
  | cons t ts ih =>
    by_cases h1 : t.planId = planCfg
    · by_cases h2 : t.percentComplete = 100
      · have helig : taskEligible planCfg t = false := by
          simp [taskEligible, h2]
        simp only [getAllOpenAux, h1, ne_eq, not_true_eq_false, if_false, h2, if_true,
          List.filter_cons, helig, Bool.false_eq_true, if_false]
        exact ih acc
      · by_cases h3 : titleIsMacCommand t.title
        · have helig : taskEligible planCfg t = true := by
            simp [taskEligible, h1, h2, h3]
          have hstep : getAllOpenAux planCfg acc (t :: ts) =
              match decodeTask t with
              | .error e => .error e
              | .ok d => getAllOpenAux planCfg (acc ++ [d]) ts := by
            simp [getAllOpenAux, h1, h2, h3]
          rw [hstep]
          simp only [List.filter_cons, helig, if_true, decodeAll]
          cases hdec : decodeTask t with
          | error e => rfl
          | ok d =>
            dsimp only
            rw [ih (acc ++ [d])]
            cases decodeAll (ts.filter (taskEligible planCfg)) <;> simp
        · have helig : taskEligible planCfg t = false := by
            simp [taskEligible, h3]
          simp only [getAllOpenAux, h1, ne_eq, not_true_eq_false, if_false, h2, if_false,
            h3, Bool.not_eq_true, if_true, List.filter_cons, helig, Bool.false_eq_true]
          exact ih acc
    · have helig : taskEligible planCfg t = false := by
        simp [taskEligible, h1]
      simp only [getAllOpenAux, h1, ne_eq, not_false_eq_true, if_true,
        List.filter_cons, helig, Bool.false_eq_true, if_false]
      exact ih acc

/-- C2: `list_open_tasks` returns exactly the queue-matching, open,
recognized-command tasks (decoded); unrecognized-but-queue-matching
tasks are silently skipped.  Instantiated on the four-task example from
the spec with configured plan `planX`. -/
theorem c2_task_filtering :
    (∀ (planCfg : PyStr) (tasks : List RawTask),
      get_all_open_EFGWiFiAutomation_planner_tasks planCfg tasks =
        decodeAll (tasks.filter (taskEligible planCfg))) ∧
    get_all_open_EFGWiFiAutomation_planner_tasks "planX".data
      [⟨"t1".data, "planX".data, 0, "ADDMAC - John Doe - Guest".data,
         "123 # AA:BB:CC:DD:EE:FF".data⟩,
       ⟨"t2".data, "planY".data, 0, "ADDMAC - John Doe - Guest".data,
         "123 # AA:BB:CC:DD:EE:FF".data⟩,
       ⟨"t3".data, "planX".data, 100, "ADDMAC - John Doe - Guest".data,
         "123 # AA:BB:CC:DD:EE:FF".data⟩,
       ⟨"t4".data, "planX".data, 0, "FOO - x - y".data, "1 # aa".data⟩] =
      .ok [⟨"t1".data, "addmac".data, "John Doe".data, "Guest".data,
            "123".data, "AA:BB:CC:DD:EE:FF".data⟩] := by
  constructor
  · intro planCfg tasks
    rw [get_all_open_EFGWiFiAutomation_planner_tasks, getAllOpenAux_eq]
    cases decodeAll (tasks.filter (taskEligible planCfg)) <;> simp
  · rfl

/-- The task loop processes a list prefix first: decomposition of
`runLoop` over an append. -/
theorem runLoop_append (cfg : AutomationConfig) (env : EnvState) (i : Nat)
    (xs ys : List EngTask) :
    runLoop cfg env i (xs ++ ys) =
      match runLoop cfg env i xs with
      | .error p => .error p
      | .ok (env1, i1) => runLoop cfg env1 i1 ys := by
  induction xs generalizing env i with
  | nil => rfl
  | cons t xs ih =>
    simp only [List.cons_append, runLoop]
    cases applyTask cfg env t with
    | error e => rfl
    | ok env1 =>
      dsimp only
      cases setTaskCompleted env1 t with
      | error e => rfl
      | ok env2 => exact ih env2 (i + 1)

/-- Applying a task to the controller and backup store never touches
the upstream completion state. -/
theorem applyTask_completed (cfg : AutomationConfig) (env : EnvState) (t : EngTask)
    (env1 : EnvState) (h : applyTask cfg env t = .ok env1) :
    env1.completed = env.completed := by
  unfold applyTask manageAddMac manageRemoveMac at h
  repeat' split at h
  all_goals simp_all
  all_goals rw [← h]

/-- C1: if `set_task_completed` fails after the controller-filter and
backup-file mutations of a task succeeded, the run stops with the error
notification, no status summary is sent, and the final state is exactly
the post-mutation state: the task's filter/backup changes and the
completions of all earlier tasks of the run are left in place (no
rollback). -/
theorem c1_failure_stops_run (cfg : AutomationConfig) (env : EnvState)
    (done : List EngTask) (t : EngTask) (rest : List EngTask)
    (envD : EnvState) (i : Nat) (envA : EnvState)
    (hdone : runLoop cfg env 0 done = .ok (envD, i))
    (happly : applyTask cfg envD t = .ok envA)
    (hfail : t.markDoneFails = true) :
    process_wifi_mac_tasks cfg env (done ++ t :: rest) =
      { env := envA, statusMessage := none, errorSent := true } ∧
    envA.completed = envD.completed := by
  constructor
  · unfold process_wifi_mac_tasks
    rw [runLoop_append, hdone]
    dsimp only [runLoop]
    rw [happly]
    dsimp only [setTaskCompleted]
    rw [hfail]
    rfl
  · exact applyTask_completed cfg envD t envA happly

/-- Witness for C1: a concrete two-task run — the first task completes,
the second task's `mark_done` hits a concurrent modification after its
mutations succeeded. -/
theorem c1_witness :
    process_wifi_mac_tasks ⟨true, true⟩
      ⟨[("Guest".data, [])], ⟨[], []⟩, []⟩
      ([⟨"T0".data, "addmac".data, "Guest".data, "aa:bb:cc:dd:ee:ff".data,
          "John".data, false⟩] ++
        ⟨"T1".data, "addmac".data, "Guest".data, "11:22:33:44:55:66".data,
          "Jane".data, true⟩ :: []) =
      { env :=
          ⟨[("Guest".data, ["aa:bb:cc:dd:ee:ff".data, "11:22:33:44:55:66".data])],
           ⟨[("Guest".data, ["aa:bb:cc:dd:ee:ff".data, "11:22:33:44:55:66".data])],
            [("Guest".data,
              [("aa:bb:cc:dd:ee:ff".data, "John".data),
               ("11:22:33:44:55:66".data, "Jane".data)])]⟩,
           ["T0".data]⟩,
        statusMessage := none, errorSent := true } ∧
    (⟨[("Guest".data, ["aa:bb:cc:dd:ee:ff".data, "11:22:33:44:55:66".data])],
      ⟨[("Guest".data, ["aa:bb:cc:dd:ee:ff".data, "11:22:33:44:55:66".data])],
       [("Guest".data,
         [("aa:bb:cc:dd:ee:ff".data, "John".data),
          ("11:22:33:44:55:66".data, "Jane".data)])]⟩,
      ["T0".data]⟩ : EnvState).completed =
    (⟨[("Guest".data, ["aa:bb:cc:dd:ee:ff".data])],
      ⟨[("Guest".data, ["aa:bb:cc:dd:ee:ff".data])],
       [("Guest".data, [("aa:bb:cc:dd:ee:ff".data, "John".data)])]⟩,
      ["T0".data]⟩ : EnvState).completed :=
  c1_failure_stops_run ⟨true, true⟩ ⟨[("Guest".data, [])], ⟨[], []⟩, []⟩
    [⟨"T0".data, "addmac".data, "Guest".data, "aa:bb:cc:dd:ee:ff".data,
      "John".data, false⟩]
    ⟨"T1".data, "addmac".data, "Guest".data, "11:22:33:44:55:66".data,
      "Jane".data, true⟩ []
    ⟨[("Guest".data, ["aa:bb:cc:dd:ee:ff".data])],
     ⟨[("Guest".data, ["aa:bb:cc:dd:ee:ff".data])],
      [("Guest".data, [("aa:bb:cc:dd:ee:ff".data, "John".data)])]⟩,
     ["T0".data]⟩ 1
    ⟨[("Guest".data, ["aa:bb:cc:dd:ee:ff".data, "11:22:33:44:55:66".data])],
     ⟨[("Guest".data, ["aa:bb:cc:dd:ee:ff".data, "11:22:33:44:55:66".data])],
      [("Guest".data,
        [("aa:bb:cc:dd:ee:ff".data, "John".data),
         ("11:22:33:44:55:66".data, "Jane".data)])]⟩,
     ["T0".data]⟩
    rfl rfl rfl

/-- Bulk validation succeeds when every entry passes the regex. -/
theorem validate_mac_filter_list_ok {l : List PyStr}
    (h : ∀ x ∈ l, validate_mac x = true) :
    validate_mac_filter_list l = .ok () := by
  induction l with
  | nil => rfl
  | cons m r ih =>
    rw [validate_mac_filter_list, if_pos (h m (by simp))]
    exact ih fun x hx => h x (by simp [hx])

/-- Lower-casing preserves validity (the regex is applied to the
lower-cased entry anyway). -/
theorem validate_mac_pyLower {m : PyStr} (h : validate_mac m = true) :
    validate_mac (pyLower m) = true := by
  unfold validate_mac at h ⊢
  rwa [pyLower_pyLower]

/-- Every member of a lower-cased list is fixed by lower-casing. -/
theorem mem_map_pyLower_fixed {e : PyStr} {s : List PyStr}
    (he : e ∈ s.map pyLower) : pyLower e = e := by
  obtain ⟨x, -, rfl⟩ := List.mem_map.mp he
  exact pyLower_pyLower x

theorem map_pyLower_map_pyLower (s : List PyStr) :
    (s.map pyLower).map pyLower = s.map pyLower := by
  simp only [List.map_map]
  exact List.map_congr_left fun x _ => pyLower_pyLower x

/-- C4: with a valid MAC against a valid, duplicate-free filter state,
the first `add` leaves the MAC present exactly once; the second `add`
detects it as already present, issues no `set_filter` write (`false`),
and reports a no-op (an `ok` result), not an error. -/
theorem c4_idempotent_add (s : List PyStr) (m : PyStr)
    (hm : validate_mac m = true)
    (hs : ∀ x ∈ s, validate_mac x = true)
    (huniq : (get_current_mac_filter_list s).count (pyLower m) ≤ 1) :
    ∃ s1 w1, add_mac_to_mac_filter s m = .ok (s1, w1) ∧
      add_mac_to_mac_filter s1 m = .ok (s1, false) ∧
      (get_current_mac_filter_list s1).count (pyLower m) = 1 := by
  unfold add_mac_to_mac_filter get_current_mac_filter_list at *
  by_cases hmem : pyLower m ∈ s.map pyLower
  · refine ⟨s, false, ?_, ?_, ?_⟩
    · rw [if_neg (by simp [hmem])]
    · rw [if_neg (by simp [hmem])]
    · have h1 : 1 ≤ (s.map pyLower).count (pyLower m) := List.one_le_count_iff.mpr hmem
      omega
  · have hvalid : validate_mac_filter_list (s.map pyLower ++ [pyLower m]) = .ok () := by
      apply validate_mac_filter_list_ok
      intro x hx
      rcases List.mem_append.mp hx with hx1 | hx1
      · obtain ⟨y, hy, rfl⟩ := List.mem_map.mp hx1
        exact validate_mac_pyLower (hs y hy)
      · rw [List.mem_singleton.mp hx1]
        exact validate_mac_pyLower hm
    refine ⟨s.map pyLower ++ [pyLower m], true, ?_, ?_, ?_⟩
    · rw [if_pos (by simp [hmem])]
      dsimp only
      rw [hvalid]
    · have hmap : (s.map pyLower ++ [pyLower m]).map pyLower =
          s.map pyLower ++ [pyLower m] := by
        rw [List.map_append, map_pyLower_map_pyLower]
        simp [pyLower_pyLower]
      rw [hmap, if_neg (by simp)]
    · have hmap : (s.map pyLower ++ [pyLower m]).map pyLower =
          s.map pyLower ++ [pyLower m] := by
        rw [List.map_append, map_pyLower_map_pyLower]
        simp [pyLower_pyLower]
      rw [hmap, List.count_append]
      rw [List.count_eq_zero_of_not_mem hmem]
      simp

/-- Witness for C4 at the empty filter state and a concrete MAC. -/
theorem c4_witness :
    ∃ s1 w1, add_mac_to_mac_filter [] "AA:BB:CC:DD:EE:FF".data = .ok (s1, w1) ∧
      add_mac_to_mac_filter s1 "AA:BB:CC:DD:EE:FF".data = .ok (s1, false) ∧
      (get_current_mac_filter_list s1).count (pyLower "AA:BB:CC:DD:EE:FF".data) = 1 :=
  c4_idempotent_add [] "AA:BB:CC:DD:EE:FF".data (by decide) (by simp) (by decide)

/-- C5: adding the upper-cased form of a valid MAC succeeds, leaves the
lower-cased form in `get_filter` and never the upper-cased form; and
`add`/`remove` behave identically on any case variant of the MAC, so
case differences cannot create duplicates or miss a removal. -/
theorem c5_canonicalization (s : List PyStr) (m : PyStr)
    (hm : validate_mac m = true)
    (hs : ∀ x ∈ s, validate_mac x = true) :
    (∃ s1 w1, add_mac_to_mac_filter s (pyUpper m) = .ok (s1, w1) ∧
      pyLower m ∈ get_current_mac_filter_list s1 ∧
      (pyUpper m ≠ pyLower m → pyUpper m ∉ get_current_mac_filter_list s1)) ∧
    add_mac_to_mac_filter s (pyUpper m) = add_mac_to_mac_filter s m ∧
    remove_mac_from_mac_filter s (pyUpper m) = remove_mac_from_mac_filter s m := by
  refine ⟨?_, ?_, ?_⟩
  · unfold add_mac_to_mac_filter get_current_mac_filter_list
    rw [pyLower_pyUpper]
    by_cases hmem : pyLower m ∈ s.map pyLower
    · refine ⟨s, false, by rw [if_neg (by simp [hmem])], hmem, ?_⟩
      intro hne hup
      exact hne ((mem_map_pyLower_fixed hup).symm.trans (by rw [pyLower_pyUpper]))
    · have hvalid : validate_mac_filter_list (s.map pyLower ++ [pyLower m]) = .ok () := by
        apply validate_mac_filter_list_ok
        intro x hx
        rcases List.mem_append.mp hx with hx1 | hx1
        · obtain ⟨y, hy, rfl⟩ := List.mem_map.mp hx1
          exact validate_mac_pyLower (hs y hy)
        · rw [List.mem_singleton.mp hx1]
          exact validate_mac_pyLower hm
      refine ⟨s.map pyLower ++ [pyLower m], true, ?_, ?_, ?_⟩
      · rw [if_pos (by simp [hmem])]
        dsimp only
        rw [hvalid]
      · have hmap : (s.map pyLower ++ [pyLower m]).map pyLower =
            s.map pyLower ++ [pyLower m] := by
          rw [List.map_append, map_pyLower_map_pyLower]
          simp [pyLower_pyLower]
        rw [hmap]
        simp
      · intro hne hup
        have hmap : (s.map pyLower ++ [pyLower m]).map pyLower =
            s.map pyLower ++ [pyLower m] := by
          rw [List.map_append, map_pyLower_map_pyLower]
          simp [pyLower_pyLower]
        rw [hmap] at hup
        rcases List.mem_append.mp hup with hx1 | hx1
        · exact hne ((mem_map_pyLower_fixed hx1).symm.trans (by rw [pyLower_pyUpper]))
        · have := List.mem_singleton.mp hx1
          have hlow := congrArg pyLower this
          rw [pyLower_pyUpper, pyLower_pyLower] at hlow
          exact hne (this.trans hlow.symm)
  · unfold add_mac_to_mac_filter
    rw [pyLower_pyUpper]
  · unfold remove_mac_from_mac_filter
    rw [pyLower_pyUpper]

/-- Witness for C5 at the empty filter state and a concrete MAC whose
upper and lower forms differ. -/
theorem c5_witness :
    (∃ s1 w1,
      add_mac_to_mac_filter [] (pyUpper "aa:bb:cc:dd:ee:ff".data) = .ok (s1, w1) ∧
      pyLower "aa:bb:cc:dd:ee:ff".data ∈ get_current_mac_filter_list s1 ∧
      (pyUpper "aa:bb:cc:dd:ee:ff".data ≠ pyLower "aa:bb:cc:dd:ee:ff".data →
        pyUpper "aa:bb:cc:dd:ee:ff".data ∉ get_current_mac_filter_list s1)) ∧
    add_mac_to_mac_filter [] (pyUpper "aa:bb:cc:dd:ee:ff".data) =
      add_mac_to_mac_filter [] "aa:bb:cc:dd:ee:ff".data ∧
    remove_mac_from_mac_filter [] (pyUpper "aa:bb:cc:dd:ee:ff".data) =
      remove_mac_from_mac_filter [] "aa:bb:cc:dd:ee:ff".data :=
  c5_canonicalization [] "aa:bb:cc:dd:ee:ff".data (by decide) (by simp)

/-! ### C9: titles accepted by the Task Source filter -/
theorem splitSeqAux_ne_nil (sep : PyStr) (fuel : Nat) (cs : PyStr) :
    splitSeqAux sep fuel cs ≠ [] := by
  match fuel, cs with
  | _, [] => simp [splitSeqAux]
  | 0, c :: r => simp [splitSeqAux]
  | fuel + 1, c :: r =>
    rw [splitSeqAux]
    split
    · simp
    · split <;> simp

/-- The first field returned by `split` is an initial segment of the
string, and what follows it is empty or starts with the separator. -/
theorem splitSeqAux_headI_decomp (sep : PyStr) (fuel : Nat) (cs : PyStr) :
    ∃ rest, cs = (splitSeqAux sep fuel cs).headI ++ rest ∧
      (rest = [] ∨ sep.isPrefixOf rest = true) := by
  induction fuel generalizing cs with
  | zero =>
    cases cs with
    | nil => exact ⟨[], rfl, Or.inl rfl⟩
    | cons c r => exact ⟨[], by simp [splitSeqAux], Or.inl rfl⟩
  | succ fuel ih =>
    cases cs with
    | nil => exact ⟨[], rfl, Or.inl rfl⟩
    | cons c r =>
      rw [splitSeqAux]
      by_cases hpre : (sep.isPrefixOf (c :: r) && !sep.isEmpty) = true
      · rw [if_pos hpre]
        refine ⟨c :: r, rfl, Or.inr ?_⟩
        simp only [Bool.and_eq_true] at hpre
        exact hpre.1
      · rw [if_neg hpre]
        obtain ⟨rest, hr, hor⟩ := ih r
        cases hsp : splitSeqAux sep fuel r with
        | nil => exact absurd hsp (splitSeqAux_ne_nil _ _ _)
        | cons p ps =>
          rw [hsp] at hr
          simp only [List.headI] at hr ⊢
          exact ⟨rest, by rw [List.cons_append, ← hr], hor⟩

theorem dropTrailWs_initial (s : PyStr) : dropTrailWs s <+: s := by
  rw [← List.reverse_suffix]
  unfold dropTrailWs
  rw [List.reverse_reverse]
  exact List.dropWhile_suffix isPyWs

theorem dropTrailWs_spec (s : PyStr) :
    ∃ t, s = dropTrailWs s ++ t ∧ ∀ c ∈ t, isPyWs c = true := by
  refine ⟨(s.reverse.takeWhile isPyWs).reverse, ?_, ?_⟩
  · conv_lhs => rw [← s.reverse_reverse,
      ← List.takeWhile_append_dropWhile isPyWs s.reverse]
    rw [List.reverse_append]
    rfl
  · intro c hc
    rw [List.mem_reverse] at hc
    exact List.mem_takeWhile_imp hc

/-- A six-character prefix of non-whitespace characters survives
lower-casing after `strip`. -/
theorem prefix_pyLower_pyStrip {p f0 : PyStr} (hp : p.length = 6)
    (hnws : ∀ d ∈ p, isPyWs d = false) (hpref : p <+: pyLower f0) :
    p <+: pyLower (pyStrip f0) := by
  have hlenp : (pyLower f0).length = f0.length := by simp [pyLower]
  have hlen : 6 ≤ f0.length := by
    have := hpref.length_le
    omega
  have hptake : p = (pyLower f0).take 6 := by
    have := List.prefix_iff_eq_take.mp hpref
    rwa [hp] at this
  have htake6 : ∀ c ∈ f0.take 6, isPyWs c = false := by
    intro c hc
    have hmap : pyLower (f0.take 6) = p := by
      rw [pyLower, List.map_take]
      exact hptake.symm
    have hcl : c.toLower ∈ p := by
      rw [← hmap]
      exact List.mem_map_of_mem _ hc
    rw [← isPyWs_toLower c]
    exact hnws _ hcl
  have hdropWhile : f0.dropWhile isPyWs = f0 := by
    cases hf : f0 with
    | nil => rfl
    | cons c r =>
      have hc : isPyWs c = false := by
        apply htake6
        rw [hf]
        simp [List.take_cons]
      rw [List.dropWhile_cons, hc]
      simp
  have hstrip : pyStrip f0 = dropTrailWs f0 := by rw [pyStrip, hdropWhile]
  obtain ⟨t, hsplit, htws⟩ := dropTrailWs_spec f0
  have hk : dropTrailWs f0 = f0.take (dropTrailWs f0).length :=
    List.prefix_iff_eq_take.mp (dropTrailWs_initial f0)
  have hklen : 6 ≤ (dropTrailWs f0).length := by
    by_contra hlt
    push_neg at hlt
    have hidx : (dropTrailWs f0).length < f0.length := by omega
    have hmem1 : f0[(dropTrailWs f0).length] ∈ f0.take 6 := by
      have h6 : (dropTrailWs f0).length < (f0.take 6).length := by
        simp only [List.length_take]
        omega
      have hgt : (f0.take 6)[(dropTrailWs f0).length] = f0[(dropTrailWs f0).length] :=
        List.getElem_take f0
      rw [← hgt]
      exact List.getElem_mem h6
    have hmem2 : f0[(dropTrailWs f0).length] ∈ t := by
      have htdrop : t = f0.drop (dropTrailWs f0).length := by
        have h2 := congrArg (List.drop (dropTrailWs f0).length) hsplit
        rw [List.drop_left] at h2
        exact h2.symm
      have h0 : 0 < (f0.drop (dropTrailWs f0).length).length := by
        rw [List.length_drop]
        omega
      have hh : (f0.drop (dropTrailWs f0).length).get ⟨0, h0⟩ =
          f0[(dropTrailWs f0).length] := by
        rw [List.get_eq_getElem, List.getElem_drop]
        simp
      rw [htdrop, ← hh]
      exact List.get_mem _ 0 h0
    have h1 := htws _ hmem2
    have h2 := htake6 _ hmem1
    rw [h1] at h2
    exact absurd h2 (by decide)
  rw [hstrip, hk]
  have hply : pyLower (f0.take (dropTrailWs f0).length) =
      (pyLower f0).take (dropTrailWs f0).length := by
    rw [pyLower, List.map_take]
    rfl
  rw [hply]
  have hpt : p = ((pyLower f0).take (dropTrailWs f0).length).take 6 := by
    rw [List.take_take]
    have hmin : min 6 (dropTrailWs f0).length = 6 := by omega
    rw [hmin]
    exact hptake
  rw [hpt]
  exact List.take_prefix _ _

/-- Core of C9: a title the Task Source filter accepts yields a decoded
command that starts with the six lower-case characters of the accepted
command word. -/
theorem title_field_keeps_command (p title : PyStr) (hp : p.length = 6)
    (hnws : ∀ d ∈ p, isPyWs d = false) (hnsp : ∀ d ∈ p, ¬ d = ' ')
    (hpref : p.isPrefixOf (pyLower title) = true) :
    p.isPrefixOf (pyLower (pyStrip (splitSeq " - ".data title).headI)) = true := by
  rw [List.isPrefixOf_iff_prefix] at hpref ⊢
  show p <+: pyLower (pyStrip (splitSeqAux " - ".data title.length title).headI)
  obtain ⟨rest, htitle, hor⟩ :=
    splitSeqAux_headI_decomp " - ".data title.length title
  apply prefix_pyLower_pyStrip hp hnws
  rcases hor with hnil | hsep
  · rw [hnil, List.append_nil] at htitle
    rwa [← htitle]
  · have hrest : ∃ rest1, rest = ' ' :: rest1 := by
      rw [List.isPrefixOf_iff_prefix] at hsep
      obtain ⟨t1, ht1⟩ := hsep
      exact ⟨"- ".data ++ t1, by rw [← ht1]; rfl⟩
    obtain ⟨rest1, hrest1⟩ := hrest
    set f0 := (splitSeqAux " - ".data title.length title).headI with hf0def
    have hlow : pyLower title = pyLower f0 ++ ' ' :: pyLower rest1 := by
      rw [htitle, hrest1, pyLower, List.map_append]
      rfl
    have hf0p : pyLower f0 <+: pyLower title := by
      rw [hlow]
      exact ⟨' ' :: pyLower rest1, rfl⟩
    by_cases hlen : 6 ≤ f0.length
    · have hlenp : (pyLower f0).length = f0.length := by simp [pyLower]
      have hptake : p = (pyLower title).take 6 := by
        have := List.prefix_iff_eq_take.mp hpref
        rwa [hp] at this
      have hpf : p = (pyLower f0).take 6 := by
        rw [hptake, hlow, List.take_append_eq_append_take]
        have hz : 6 - (pyLower f0).length = 0 := by omega
        rw [hz]
        simp
      rw [hpf]
      exact List.take_prefix _ _
    · exfalso
      push_neg at hlen
      have hshort : pyLower f0 <+: p := by
        apply List.prefix_of_prefix_length_le hf0p hpref
        simp only [pyLower, List.length_map]
        omega
      obtain ⟨q, hq⟩ := hshort
      have hqlen : q ≠ [] := by
        intro hqe
        rw [hqe, List.append_nil] at hq
        have := congrArg List.length hq
        simp only [pyLower, List.length_map] at this
        omega
      obtain ⟨q0, q1, rfl⟩ := List.exists_cons_of_ne_nil hqlen
      have hqpref : pyLower f0 ++ q0 :: q1 <+: pyLower f0 ++ ' ' :: pyLower rest1 := by
        rw [hq, ← hlow]
        exact hpref
      rw [List.prefix_append_right_inj] at hqpref
      have hq0 : q0 = ' ' := (List.cons_prefix_cons.mp hqpref).1
      have hq0mem : q0 ∈ p := by
        rw [← hq]
        exact List.mem_append_right _ (by simp)
      exact hnsp q0 hq0mem hq0

/-- C9 (amended): every title accepted by the Task Source filter
decodes to a command that starts with `addmac` or `delmac`; it need not
be exactly one of them, so the Reconciliation Engine's defensive
invalid-command branch is reachable for Task-Source-accepted tasks. -/
theorem c9_command_word (title cmd com wifi : PyStr)
    (haccept : titleIsMacCommand title = true)
    (hdec : get_efg_parts_from_task title = .ok (cmd, com, wifi)) :
    "addmac".data.isPrefixOf cmd = true ∨ "delmac".data.isPrefixOf cmd = true := by
  have hcmd : cmd = pyLower (pyStrip (splitSeq " - ".data title).headI) := by
    unfold get_efg_parts_from_task at hdec
    cases hg0 : (splitSeq " - ".data title).get? 0 with
    | none => rw [hg0] at hdec; simp at hdec
    | some f0 =>
      rw [hg0] at hdec
      cases hg1 : (splitSeq " - ".data title).get? 1 with
      | none => rw [hg1] at hdec; simp at hdec
      | some f1 =>
        rw [hg1] at hdec
        cases hg2 : (splitSeq " - ".data title).get? 2 with
        | none => rw [hg2] at hdec; simp at hdec
        | some f2 =>
          rw [hg2] at hdec
          simp only [Except.ok.injEq, Prod.mk.injEq] at hdec
          have hhead : (splitSeq " - ".data title).headI = f0 := by
            cases hsp : splitSeq " - ".data title with
            | nil => rw [hsp] at hg0; simp at hg0
            | cons a l =>
              rw [hsp] at hg0
              simp only [List.get?] at hg0
              cases hg0
              rfl
          rw [hhead, ← hdec.1]
  rw [titleIsMacCommand, Bool.or_eq_true] at haccept
  rcases haccept with h | h
  · left
    rw [hcmd]
    exact title_field_keeps_command "addmac".data title (by decide) (by decide)
      (by decide) h
  · right
    rw [hcmd]
    exact title_field_keeps_command "delmac".data title (by decide) (by decide)
      (by decide) h

/-- Counterexample to C9 as stated: the title `addmacs - x - y` passes
the Task Source filter yet decodes to the command `addmacs`, which is
neither exactly `addmac` nor `delmac`, so the engine's defensive
invalid-command branch is reachable — it raises on such a task. -/
theorem c9_counterexample :
    titleIsMacCommand "addmacs - x - y".data = true ∧
    get_efg_parts_from_task "addmacs - x - y".data =
      .ok ("addmacs".data, "x".data, "y".data) ∧
    ("addmacs".data ≠ "addmac".data ∧ "addmacs".data ≠ "delmac".data) ∧
    applyTask ⟨true, true⟩ ⟨[], ⟨[], []⟩, []⟩
      ⟨"t".data, "addmacs".data, "y".data, "aa:aa:aa:aa:aa:aa".data, "x".data, false⟩ =
      .error "ValueError: efg_mac_command is invalid" :=
  ⟨by decide, rfl, ⟨by decide, by decide⟩, rfl⟩

/-- Witness for C9 at a concrete accepted title. -/
theorem c9_witness :
    "addmac".data.isPrefixOf "addmac".data = true ∨
    "delmac".data.isPrefixOf "addmac".data = true :=
  c9_command_word "ADDMAC - John Doe - Guest".data "addmac".data
    "John Doe".data "Guest".data (by decide) rfl

theorem atEndPy_iff (t : PyStr) : atEndPy t = true ↔ t = [] ∨ t = ['\n'] := by
  match t with
  | [] => simp [atEndPy]
  | [c] =>
    simp only [atEndPy, decide_eq_true_eq]
    constructor
    · intro h; right; rw [h]
    · rintro (h | h)
      · cases h
      · cases h; rfl
  | a :: b :: r => simp [atEndPy]

theorem colonHexTail_iff (n : Nat) (r : PyStr) :
    colonHexTail n r = true ↔
      ∃ g t, r = g ++ t ∧ ColonChunks n g ∧ atEndPy t = true := by
  induction n generalizing r with
  | zero =>
    simp only [colonHexTail, ColonChunks]
    constructor
    · intro h
      exact ⟨[], r, rfl, rfl, h⟩
    · rintro ⟨g, t, rfl, rfl, ht⟩
      exact ht
  | succ n ih =>
    match r with
    | [] =>
      simp only [colonHexTail, ColonChunks]
      constructor
      · intro h; cases h
      · rintro ⟨g, t, habs, ⟨a, b, g1, rfl, -, -, -⟩, -⟩
        cases habs
    | [x] =>
      simp only [colonHexTail, ColonChunks]
      constructor
      · intro h; cases h
      · rintro ⟨g, t, habs, ⟨a, b, g1, rfl, -, -, -⟩, -⟩
        cases habs
    | [x, y] =>
      simp only [colonHexTail, ColonChunks]
      constructor
      · intro h; cases h
      · rintro ⟨g, t, habs, ⟨a, b, g1, rfl, -, -, -⟩, -⟩
        cases habs
    | s :: a :: b :: r1 =>
      simp only [colonHexTail, Bool.and_eq_true, decide_eq_true_eq, ih r1]
      constructor
      · rintro ⟨⟨⟨hs, ha⟩, hb⟩, g, t, rfl, hcc, ht⟩
        exact ⟨':' :: a :: b :: g, t, by subst hs; simp, ⟨a, b, g, rfl, ha, hb, hcc⟩, ht⟩
      · rintro ⟨g, t, heq, ⟨a1, b1, g1, rfl, ha, hb, hcc⟩, ht⟩
        injection heq with h1 heq
        injection heq with h2 heq
        injection heq with h3 heq
        subst h1; subst h2; subst h3
        exact ⟨⟨⟨rfl, ha⟩, hb⟩, g1, t, heq, hcc, ht⟩

theorem hexTail_iff (n : Nat) (r : PyStr) :
    hexTail n r = true ↔
      ∃ g t, r = g ++ t ∧ HexChunks n g ∧ atEndPy t = true := by
  induction n generalizing r with
  | zero =>
    simp only [hexTail, HexChunks]
    constructor
    · intro h
      exact ⟨[], r, rfl, rfl, h⟩
    · rintro ⟨g, t, rfl, rfl, ht⟩
      exact ht
  | succ n ih =>
    match r with
    | [] =>
      simp only [hexTail, HexChunks]
      constructor
      · intro h; cases h
      · rintro ⟨g, t, habs, ⟨a, b, g1, rfl, -, -, -⟩, -⟩
        cases habs
    | [x] =>
      simp only [hexTail, HexChunks]
      constructor
      · intro h; cases h
      · rintro ⟨g, t, habs, ⟨a, b, g1, rfl, -, -, -⟩, -⟩
        cases habs
    | a :: b :: r1 =>
      simp only [hexTail, Bool.and_eq_true, decide_eq_true_eq, ih r1]
      constructor
      · rintro ⟨⟨ha, hb⟩, g, t, rfl, hcc, ht⟩
        exact ⟨a :: b :: g, t, by simp, ⟨a, b, g, rfl, ha, hb, hcc⟩, ht⟩
      · rintro ⟨g, t, heq, ⟨a1, b1, g1, rfl, ha, hb, hcc⟩, ht⟩
        injection heq with h1 heq
        injection heq with h2 heq
        subst h1; subst h2
        exact ⟨⟨ha, hb⟩, g1, t, heq, hcc, ht⟩

theorem specSixGroupsColon_iff (cs : PyStr) :
    specSixGroupsColon cs = true ↔
      ∃ a b g, cs = a :: b :: g ∧ isLowerHexDigit a = true ∧
        isLowerHexDigit b = true ∧ ColonChunks 5 g := by
  constructor
  · intro h
    unfold specSixGroupsColon at h
    split at h
    · next a1 a2 s1 b1 b2 s2 c1 c2 s3 d1 d2 s4 e1 e2 s5 f1 f2 =>
      simp only [Bool.and_eq_true, decide_eq_true_eq, List.all_cons, List.all_nil,
        Bool.and_true] at h
      obtain ⟨⟨⟨⟨⟨hs1, hs2⟩, hs3⟩, hs4⟩, hs5⟩,
        ha1, ha2, hb1, hb2, hc1, hc2, hd1, hd2, he1, he2, hf1, hf2⟩ := h
      subst hs1; subst hs2; subst hs3; subst hs4; subst hs5
      exact ⟨a1, a2, _, rfl, ha1, ha2,
        ⟨b1, b2, _, rfl, hb1, hb2,
          ⟨c1, c2, _, rfl, hc1, hc2,
            ⟨d1, d2, _, rfl, hd1, hd2,
              ⟨e1, e2, _, rfl, he1, he2,
                ⟨f1, f2, _, rfl, hf1, hf2, rfl⟩⟩⟩⟩⟩⟩
    · cases h
  · rintro ⟨a, b, g, rfl, ha, hb,
      b1, b2, g1, rfl, hb1, hb2,
      c1, c2, g2, rfl, hc1, hc2,
      d1, d2, g3, rfl, hd1, hd2,
      e1, e2, g4, rfl, he1, he2,
      f1, f2, g5, rfl, hf1, hf2, rfl⟩
    simp [specSixGroupsColon, ha, hb, hb1, hb2, hc1, hc2, hd1, hd2, he1, he2, hf1, hf2]

theorem specSixGroupsPlain_iff (cs : PyStr) :
    specSixGroupsPlain cs = true ↔
      ∃ a b g, cs = a :: b :: g ∧ isLowerHexDigit a = true ∧
        isLowerHexDigit b = true ∧ HexChunks 5 g := by
  constructor
  · intro h
    unfold specSixGroupsPlain at h
    split at h
    · next a1 a2 b1 b2 c1 c2 d1 d2 e1 e2 f1 f2 =>
      simp only [List.all_cons, List.all_nil, Bool.and_eq_true, Bool.and_true] at h
      obtain ⟨ha1, ha2, hb1, hb2, hc1, hc2, hd1, hd2, he1, he2, hf1, hf2⟩ := h
      exact ⟨a1, a2, _, rfl, ha1, ha2,
        ⟨b1, b2, _, rfl, hb1, hb2,
          ⟨c1, c2, _, rfl, hc1, hc2,
            ⟨d1, d2, _, rfl, hd1, hd2,
              ⟨e1, e2, _, rfl, he1, he2,
                ⟨f1, f2, _, rfl, hf1, hf2, rfl⟩⟩⟩⟩⟩⟩
    · cases h
  · rintro ⟨a, b, g, rfl, ha, hb,
      b1, b2, g1, rfl, hb1, hb2,
      c1, c2, g2, rfl, hc1, hc2,
      d1, d2, g3, rfl, hd1, hd2,
      e1, e2, g4, rfl, he1, he2,
      f1, f2, g5, rfl, hf1, hf2, rfl⟩
    simp [specSixGroupsPlain, ha, hb, hb1, hb2, hc1, hc2, hd1, hd2, he1, he2, hf1, hf2]

/-- The embedded regex accepts exactly the uniform six-group shapes,
optionally followed by one trailing newline (Python's `$`). -/
theorem macRegexMatch_iff_spec (cs : PyStr) :
    macRegexMatch cs = true ↔
      (specUniformSep cs = true ∨
        ∃ core, cs = core ++ ['\n'] ∧ specUniformSep core = true) := by
  match cs with
  | [] =>
    simp only [macRegexMatch, specUniformSep, specSixGroupsColon, specSixGroupsPlain]
    constructor
    · intro h; cases h
    · rintro (h | ⟨core, habs, -⟩)
      · cases h
      · exact absurd (congrArg List.length habs) (by simp)
  | [x] =>
    constructor
    · intro h; cases h
    · rintro (h | ⟨core, habs, hcore⟩)
      · cases h
      · have hc0 : core = [] := by
          have hlen := congrArg List.length habs
          simpa using hlen
        subst hc0
        cases hcore
  | a :: b :: r =>
    constructor
    · intro h
      have h1 : isLowerHexDigit a = true ∧ isLowerHexDigit b = true ∧
          (colonHexTail 5 r = true ∨ hexTail 5 r = true) := by
        simpa [macRegexMatch, Bool.and_eq_true, Bool.or_eq_true, and_assoc] using h
      obtain ⟨ha, hb, hor⟩ := h1
      rcases hor with hct | hht
      · obtain ⟨g, t, rfl, hcc, ht⟩ := (colonHexTail_iff 5 r).mp hct
        rcases (atEndPy_iff t).mp ht with rfl | rfl
        · left
          rw [specUniformSep, Bool.or_eq_true]
          left
          rw [specSixGroupsColon_iff]
          exact ⟨a, b, g, by simp, ha, hb, hcc⟩
        · right
          refine ⟨a :: b :: g, by simp, ?_⟩
          rw [specUniformSep, Bool.or_eq_true]
          left
          rw [specSixGroupsColon_iff]
          exact ⟨a, b, g, rfl, ha, hb, hcc⟩
      · obtain ⟨g, t, rfl, hcc, ht⟩ := (hexTail_iff 5 r).mp hht
        rcases (atEndPy_iff t).mp ht with rfl | rfl
        · left
          rw [specUniformSep, Bool.or_eq_true]
          right
          rw [specSixGroupsPlain_iff]
          exact ⟨a, b, g, by simp, ha, hb, hcc⟩
        · right
          refine ⟨a :: b :: g, by simp, ?_⟩
          rw [specUniformSep, Bool.or_eq_true]
          right
          rw [specSixGroupsPlain_iff]
          exact ⟨a, b, g, rfl, ha, hb, hcc⟩
    · intro h
      have hgoal : ∀ (ha : isLowerHexDigit a = true) (hb : isLowerHexDigit b = true),
          (colonHexTail 5 r = true ∨ hexTail 5 r = true) →
          macRegexMatch (a :: b :: r) = true := by
        intro ha hb hor
        simp [macRegexMatch, ha, hb, Bool.or_eq_true]
        rcases hor with hc | hh
        · exact Or.inl hc
        · exact Or.inr hh
      rcases h with hspec | ⟨core, hceq, hspec⟩
      · rw [specUniformSep, Bool.or_eq_true] at hspec
        rcases hspec with hc | hp
        · obtain ⟨a1, b1, g, heq, ha, hb, hcc⟩ := (specSixGroupsColon_iff _).mp hc
          injection heq with e1 heq
          injection heq with e2 heq
          subst e1; subst e2; subst heq
          exact hgoal ha hb (Or.inl ((colonHexTail_iff 5 _).mpr ⟨_, [], by simp, hcc, rfl⟩))
        · obtain ⟨a1, b1, g, heq, ha, hb, hcc⟩ := (specSixGroupsPlain_iff _).mp hp
          injection heq with e1 heq
          injection heq with e2 heq
          subst e1; subst e2; subst heq
          exact hgoal ha hb (Or.inr ((hexTail_iff 5 _).mpr ⟨_, [], by simp, hcc, rfl⟩))
      · rw [specUniformSep, Bool.or_eq_true] at hspec
        rcases hspec with hc | hp
        · obtain ⟨a1, b1, g, heq, ha, hb, hcc⟩ := (specSixGroupsColon_iff _).mp hc
          subst heq
          rw [List.cons_append, List.cons_append] at hceq
          injection hceq with e1 hceq
          injection hceq with e2 hceq
          subst e1; subst e2; subst hceq
          exact hgoal ha hb (Or.inl ((colonHexTail_iff 5 _).mpr ⟨g, ['\n'], rfl, hcc, rfl⟩))
        · obtain ⟨a1, b1, g, heq, ha, hb, hcc⟩ := (specSixGroupsPlain_iff _).mp hp
          subst heq
          rw [List.cons_append, List.cons_append] at hceq
          injection hceq with e1 hceq
          injection hceq with e2 hceq
          subst e1; subst e2; subst hceq
          exact hgoal ha hb (Or.inr ((hexTail_iff 5 _).mpr ⟨g, ['\n'], rfl, hcc, rfl⟩))

/-- C6 (amended): the validator accepts `s` iff `s`, lower-cased,
consists of six groups of two hex digits joined by a uniform separator
(all five `:`, or all absent) — or is such a shape followed by a single
trailing newline, an artifact of Python's `$` anchor.  In particular it
accepts `aa:bb:cc:dd:ee:ff` and rejects dash-separated and
mixed-separator forms and any group outside lower-hex pairs. -/
theorem c6_validator_characterization :
    (∀ m : PyStr, validate_mac m = true ↔
      (specUniformSep (pyLower m) = true ∨
        ∃ core, pyLower m = core ++ ['\n'] ∧ specUniformSep core = true)) ∧
    validate_mac "aa:bb:cc:dd:ee:ff".data = true ∧
    validate_mac "aa-bb-cc-dd-ee-ff".data = false ∧
    validate_mac "aa:bbccddeeff".data = false ∧
    validate_mac "aa:bb:cc:dd:ee:fg".data = false :=
  ⟨fun m => macRegexMatch_iff_spec (pyLower m), by decide, by decide, by decide, by decide⟩

/-- Counterexample to C6 as stated: the validator accepts
`"aa:bb:cc:dd:ee:ff\n"`, which is not six uniformly separated hex
groups (Python's `$` matches before a trailing newline). -/
theorem c6_counterexample :
    validate_mac "aa:bb:cc:dd:ee:ff\n".data = true ∧
    specUniformSep (pyLower "aa:bb:cc:dd:ee:ff\n".data) = false :=
  ⟨by decide, by decide⟩

/-! ### C7: backup-file round trip — string lemmas -/
theorem splitChar_no_sep {sep : Char} {xs : PyStr} (h : ∀ c ∈ xs, ¬ c = sep) :
    splitChar sep xs = [xs] := by
  induction xs with
  | nil => rfl
  | cons c r ih =>
    rw [splitChar, if_neg (h c (by simp))]
    rw [ih fun x hx => h x (by simp [hx])]

theorem splitChar_append_sep {sep : Char} {xs : PyStr} (ys : PyStr)
    (h : ∀ c ∈ xs, ¬ c = sep) :
    splitChar sep (xs ++ sep :: ys) = xs :: splitChar sep ys := by
  induction xs with
  | nil =>
    simp only [List.nil_append]
    rw [splitChar, if_pos rfl]
  | cons c r ih =>
    rw [List.cons_append, splitChar, if_neg (h c (by simp))]
    rw [ih fun x hx => h x (by simp [hx])]

theorem pyReadlines_line {xs : PyStr} (rest : PyStr) (h : '\n' ∉ xs) :
    pyReadlines (xs ++ '\n' :: rest) = (xs ++ ['\n']) :: pyReadlines rest := by
  induction xs with
  | nil =>
    simp only [List.nil_append]
    rw [pyReadlines, if_pos rfl]
  | cons c r ih =>
    rw [List.cons_append, pyReadlines,
      if_neg (by simp at h; exact fun hc => h.1 hc.symm)]
    rw [ih (by simp at h; exact fun hm => h.2 hm)]
    rfl

/-- `readlines` of a concatenation of newline-terminated lines. -/
theorem pyReadlines_flatten {ls : List PyStr}
    (h : ∀ l ∈ ls, ∃ xs, l = xs ++ ['\n'] ∧ '\n' ∉ xs) :
    pyReadlines ls.flatten = ls := by
  induction ls with
  | nil => rfl
  | cons l ls ih =>
    obtain ⟨xs, rfl, hxs⟩ := h l (by simp)
    rw [List.flatten_cons, List.append_assoc, List.singleton_append,
      pyReadlines_line _ hxs, ih fun x hx => h x (by simp [hx])]

theorem dropWhile_append_of_all {p : Char → Bool} {l1 : PyStr} (l2 : PyStr)
    (h : ∀ c ∈ l1, p c = true) :
    (l1 ++ l2).dropWhile p = l2.dropWhile p := by
  induction l1 with
  | nil => rfl
  | cons c r ih =>
    rw [List.cons_append, List.dropWhile_cons, if_pos (h c (by simp))]
    exact ih fun x hx => h x (by simp [hx])

theorem dropWhile_eq_self_of_head {p : Char → Bool} {l : PyStr}
    (h : ∀ c, l.head? = some c → p c = false) :
    l.dropWhile p = l := by
  cases l with
  | nil => rfl
  | cons c r =>
    rw [List.dropWhile_cons, if_neg (by rw [h c rfl]; simp)]

theorem dropTrailWs_append_ws {s t : PyStr} (h : ∀ c ∈ t, isPyWs c = true) :
    dropTrailWs (s ++ t) = dropTrailWs s := by
  unfold dropTrailWs
  rw [List.reverse_append,
    dropWhile_append_of_all _ (fun c hc => h c (List.mem_reverse.mp hc))]

theorem dropTrailWs_eq_self_of_getLast {s : PyStr}
    (h : ∀ c, s.getLast? = some c → isPyWs c = false) :
    dropTrailWs s = s := by
  unfold dropTrailWs
  rw [dropWhile_eq_self_of_head, List.reverse_reverse]
  intro c hc
  apply h
  rwa [← List.head?_reverse]

theorem stripInv_head {s : PyStr} (h : stripInv s = true) :
    ∀ c, s.head? = some c → isPyWs c = false := by
  intro c hc
  unfold stripInv at h
  rw [Bool.and_eq_true] at h
  have := h.1
  rw [hc] at this
  simpa using this

theorem stripInv_getLast {s : PyStr} (h : stripInv s = true) :
    ∀ c, s.getLast? = some c → isPyWs c = false := by
  intro c hc
  unfold stripInv at h
  rw [Bool.and_eq_true] at h
  have := h.2
  rw [hc] at this
  simpa using this

theorem pyStrip_eq_self_of_stripInv {s : PyStr} (h : stripInv s = true) :
    pyStrip s = s := by
  unfold pyStrip
  rw [dropWhile_eq_self_of_head (stripInv_head h),
    dropTrailWs_eq_self_of_getLast (stripInv_getLast h)]

theorem goodName_pyLower {s : PyStr} (h : goodName s = true) :
    goodName (pyLower s) = true := by
  unfold goodName at h ⊢
  rw [Bool.and_eq_true] at h ⊢
  constructor
  · rw [List.all_eq_true] at h ⊢
    intro c hc
    obtain ⟨c0, hc0, rfl⟩ := List.mem_map.mp hc
    have := h.1 c0 hc0
    simp only [Bool.and_eq_true, Bool.not_eq_eq_eq_not, Bool.not_true,
      decide_eq_false_iff_not] at this ⊢
    exact ⟨⟨fun he => this.1.1 ((Char.toLower_eq_iff_of_toNat_lt (by decide)).mp he),
      fun he => this.1.2 ((Char.toLower_eq_iff_of_toNat_lt (by decide)).mp he)⟩,
      fun he => this.2 ((Char.toLower_eq_iff_of_toNat_lt (by decide)).mp he)⟩
  · unfold stripInv at h ⊢
    rw [Bool.and_eq_true] at h ⊢
    obtain ⟨-, h1, h2⟩ := h
    constructor
    · rw [pyLower, List.head?_map]
      cases hh : s.head? with
      | none => simp
      | some c =>
        rw [hh] at h1
        have hws : isPyWs c.toLower = false := by
          rw [isPyWs_toLower]
          simpa using h1
        simp [Option.all, hws]
    · rw [pyLower, List.getLast?_map]
      cases hh : s.getLast? with
      | none => simp
      | some c =>
        rw [hh] at h2
        have hws : isPyWs c.toLower = false := by
          rw [isPyWs_toLower]
          simpa using h2
        simp [Option.all, hws]

theorem goodName_no_hash {s : PyStr} (h : goodName s = true) : ∀ c ∈ s, ¬ c = '#' := by
  intro c hc
  unfold goodName at h
  rw [Bool.and_eq_true, List.all_eq_true] at h
  have := h.1 c hc
  simp only [Bool.and_eq_true, Bool.not_eq_eq_eq_not, Bool.not_true,
    decide_eq_false_iff_not] at this
  exact this.1.1

theorem goodName_no_semi {s : PyStr} (h : goodName s = true) : ∀ c ∈ s, ¬ c = ';' := by
  intro c hc
  unfold goodName at h
  rw [Bool.and_eq_true, List.all_eq_true] at h
  have := h.1 c hc
  simp only [Bool.and_eq_true, Bool.not_eq_eq_eq_not, Bool.not_true,
    decide_eq_false_iff_not] at this
  exact this.1.2

theorem goodName_no_nl {s : PyStr} (h : goodName s = true) : ∀ c ∈ s, ¬ c = '\n' := by
  intro c hc
  unfold goodName at h
  rw [Bool.and_eq_true, List.all_eq_true] at h
  have := h.1 c hc
  simp only [Bool.and_eq_true, Bool.not_eq_eq_eq_not, Bool.not_true,
    decide_eq_false_iff_not] at this
  exact this.2

theorem goodName_stripInv {s : PyStr} (h : goodName s = true) : stripInv s = true := by
  unfold goodName at h
  rw [Bool.and_eq_true] at h
  exact h.2

theorem goodComment_no_hash {s : PyStr} (h : goodComment s = true) : ∀ c ∈ s, ¬ c = '#' := by
  intro c hc
  unfold goodComment at h
  rw [Bool.and_eq_true, List.all_eq_true] at h
  have := h.1 c hc
  simp only [Bool.and_eq_true, Bool.not_eq_eq_eq_not, Bool.not_true,
    decide_eq_false_iff_not] at this
  exact this.1

theorem goodComment_no_nl {s : PyStr} (h : goodComment s = true) : ∀ c ∈ s, ¬ c = '\n' := by
  intro c hc
  unfold goodComment at h
  rw [Bool.and_eq_true, List.all_eq_true] at h
  have := h.1 c hc
  simp only [Bool.and_eq_true, Bool.not_eq_eq_eq_not, Bool.not_true,
    decide_eq_false_iff_not] at this
  exact this.2

theorem goodComment_stripInv {s : PyStr} (h : goodComment s = true) : stripInv s = true := by
  unfold goodComment at h
  rw [Bool.and_eq_true] at h
  exact h.2

/-- Stripping the data part of a rendered line keeps MAC, `;` and WiFi
name and drops the three alignment spaces. -/
theorem pyStrip_dataPart {m w : PyStr} (hm : goodName m = true) (hw : goodName w = true) :
    pyStrip (m ++ ';' :: (w ++ "   ".data)) = m ++ ';' :: w := by
  unfold pyStrip
  rw [dropWhile_eq_self_of_head]
  · have hassoc : m ++ ';' :: (w ++ "   ".data) = (m ++ ';' :: w) ++ "   ".data := by
      simp
    rw [hassoc, dropTrailWs_append_ws (by decide)]
    apply dropTrailWs_eq_self_of_getLast
    intro c hc
    rw [List.getLast?_append] at hc
    have hcw : (';' :: w).getLast? = some c := by
      cases hgl : (';' :: w).getLast? with
      | none => simp at hgl
      | some c1 =>
        rw [hgl] at hc
        simp only [Option.or_some, Option.some.injEq] at hc
        rw [hc]
    cases w with
    | nil =>
      simp only [List.getLast?_singleton, Option.some.injEq] at hcw
      rw [← hcw]
      decide
    | cons w0 wr =>
      have : (';' :: w0 :: wr).getLast? = (w0 :: wr).getLast? := by
        rw [show (';' :: w0 :: wr) = [';'] ++ (w0 :: wr) from rfl,
          List.getLast?_append]
        cases hx : (w0 :: wr).getLast? with
        | none => simp at hx
        | some y => simp
      rw [this] at hcw
      exact stripInv_getLast (goodName_stripInv hw) c hcw
  · intro c hc
    cases m with
    | nil =>
      simp only [List.nil_append, List.head?_cons, Option.some.injEq] at hc
      rw [← hc]
      decide
    | cons m0 mr =>
      simp only [List.cons_append, List.head?_cons, Option.some.injEq] at hc
      rw [← hc]
      exact stripInv_head (goodName_stripInv hm) m0 rfl

/-- Stripping the comment part of a rendered line recovers the
comment. -/
theorem pyStrip_commentPart {c : PyStr} (hc : goodComment c = true) :
    pyStrip (' ' :: (c ++ ['\n'])) = c := by
  unfold pyStrip
  rw [List.dropWhile_cons, if_pos (by decide)]
  cases c with
  | nil => rfl
  | cons c0 cr =>
    rw [dropWhile_eq_self_of_head]
    · rw [show (c0 :: cr) ++ ['\n'] = (c0 :: cr) ++ ['\n'] from rfl,
        dropTrailWs_append_ws (by decide)]
      exact dropTrailWs_eq_self_of_getLast (stripInv_getLast (goodComment_stripInv hc))
    · intro x hx
      simp only [List.cons_append, List.head?_cons, Option.some.injEq] at hx
      rw [← hx]
      exact stripInv_head (goodComment_stripInv hc) c0 rfl

/-- Parsing one line written by `write_macfile` recovers exactly the
entry it renders. -/
theorem processMacLine_render (st : EFGMACFile) {w m c : PyStr}
    (hw : goodName w = true) (hm : goodName m = true) (hlow : pyLower m = m)
    (hc : goodComment c = true) :
    processMacLine st (renderEntryLine w m c) = .ok (recordEntry st w m c) := by
  have hsp : "   # ".data = "   ".data ++ ['#', ' '] := rfl
  have hline : renderEntryLine w m c =
      (m ++ ';' :: (w ++ "   ".data)) ++ '#' :: (' ' :: (c ++ ['\n'])) := by
    rw [renderEntryLine, hlow, hsp]
    simp
  have hXnohash : ∀ x ∈ m ++ ';' :: (w ++ "   ".data), ¬ x = '#' := by
    intro x hx
    rcases List.mem_append.mp hx with hx1 | hx1
    · exact goodName_no_hash hm x hx1
    · rcases List.mem_cons.mp hx1 with rfl | hx2
      · decide
      · rcases List.mem_append.mp hx2 with hx3 | hx3
        · exact goodName_no_hash hw x hx3
        · intro habs
          subst habs
          simp at hx3
  have hYnohash : ∀ x ∈ ' ' :: (c ++ ['\n']), ¬ x = '#' := by
    intro x hx
    rcases List.mem_cons.mp hx with rfl | hx1
    · decide
    · rcases List.mem_append.mp hx1 with hx2 | hx2
      · exact goodComment_no_hash hc x hx2
      · intro habs
        subst habs
        simp at hx2
  have hparts : splitChar '#' ((m ++ ';' :: (w ++ "   ".data)) ++ '#' :: (' ' :: (c ++ ['\n']))) =
      [m ++ ';' :: (w ++ "   ".data), ' ' :: (c ++ ['\n'])] := by
    rw [splitChar_append_sep _ hXnohash, splitChar_no_sep hYnohash]
  have hfields : splitChar ';' (m ++ ';' :: w) = [m, w] := by
    rw [splitChar_append_sep _ (goodName_no_semi hm), splitChar_no_sep (goodName_no_semi hw)]
  rw [hline, processMacLine]
  rw [if_neg (by simp)]
  rw [if_neg ?hnpre]
  case hnpre =>
    intro habs
    rw [List.isPrefixOf_iff_prefix] at habs
    obtain ⟨t, ht⟩ := habs
    rw [List.singleton_append] at ht
    cases hm0 : m with
    | nil =>
      rw [hm0] at ht
      simp only [List.nil_append, List.cons_append, List.cons.injEq] at ht
      exact absurd ht.1.symm (by decide)
    | cons m0 mr =>
      rw [hm0] at ht
      simp only [List.cons_append, List.cons.injEq] at ht
      exact goodName_no_hash hm m0 (by rw [hm0]; simp) ht.1.symm
  rw [hparts]
  simp only [List.headI]
  rw [pyStrip_dataPart hm hw, hfields]
  simp only [List.get?]
  rw [pyStrip_eq_self_of_stripInv (goodName_stripInv hw),
    pyStrip_eq_self_of_stripInv (goodName_stripInv hm),
    pyStrip_commentPart hc]

theorem keysOf_cons {b : Type} (k1 : PyStr) (v : b) (r : List (PyStr × b)) :
    keysOf ((k1, v) :: r) = k1 :: keysOf r := rfl

theorem alookup_eq_none_of_not_mem {b : Type} {k : PyStr} {l : List (PyStr × b)}
    (h : k ∉ keysOf l) : alookup k l = none := by
  induction l with
  | nil => rfl
  | cons p r ih =>
    obtain ⟨k1, v⟩ := p
    have hne : ¬ k1 = k := by
      rintro rfl
      exact h (by rw [keysOf_cons]; exact List.mem_cons_self _ _)
    simp only [alookup, if_neg hne]
    exact ih fun hm => h (by rw [keysOf_cons]; exact List.mem_cons_of_mem _ hm)

theorem alookup_append_of_not_mem {b : Type} {k : PyStr} {l1 : List (PyStr × b)}
    (l2 : List (PyStr × b)) (h : k ∉ keysOf l1) :
    alookup k (l1 ++ l2) = alookup k l2 := by
  induction l1 with
  | nil => rfl
  | cons p r ih =>
    obtain ⟨k1, v⟩ := p
    have hne : ¬ k1 = k := by
      rintro rfl
      exact h (by rw [keysOf_cons]; exact List.mem_cons_self _ _)
    rw [List.cons_append]
    simp only [alookup, if_neg hne]
    exact ih fun hm => h (by rw [keysOf_cons]; exact List.mem_cons_of_mem _ hm)

theorem aset_of_not_mem {b : Type} {k : PyStr} {l : List (PyStr × b)} (v : b)
    (h : k ∉ keysOf l) : aset k v l = l ++ [(k, v)] := by
  induction l with
  | nil => rfl
  | cons p r ih =>
    obtain ⟨k1, v1⟩ := p
    have hne : ¬ k1 = k := by
      rintro rfl
      exact h (by rw [keysOf_cons]; exact List.mem_cons_self _ _)
    simp only [aset, if_neg hne, List.cons_append]
    rw [ih fun hm => h (by rw [keysOf_cons]; exact List.mem_cons_of_mem _ hm)]

theorem aupd_append_of_not_mem {b : Type} {k : PyStr} {l1 : List (PyStr × b)}
    (f : b → b) (l2 : List (PyStr × b)) (h : k ∉ keysOf l1) :
    aupd k f (l1 ++ l2) = l1 ++ aupd k f l2 := by
  induction l1 with
  | nil => rfl
  | cons p r ih =>
    obtain ⟨k1, v1⟩ := p
    have hne : ¬ k1 = k := by
      rintro rfl
      exact h (by rw [keysOf_cons]; exact List.mem_cons_self _ _)
    rw [List.cons_append]
    simp only [aupd, if_neg hne, List.cons_append]
    rw [ih fun hm => h (by rw [keysOf_cons]; exact List.mem_cons_of_mem _ hm)]

theorem ensureKey_present {b : Type} {k : PyStr} {l : List (PyStr × b)} (v0 : b)
    (h : (alookup k l).isSome) : ensureKey k v0 l = l := by
  rw [ensureKey, if_neg]
  cases hl : alookup k l with
  | none => rw [hl] at h; cases h
  | some d => simp

theorem ensureKey_absent {b : Type} {k : PyStr} {l : List (PyStr × b)} (v0 : b)
    (h : k ∉ keysOf l) : ensureKey k v0 l = l ++ [(k, v0)] := by
  rw [ensureKey, if_pos (by rw [alookup_eq_none_of_not_mem h]; rfl)]
  exact aset_of_not_mem v0 h

theorem processLines_append (st : EFGMACFile) (ls1 ls2 : List PyStr) :
    processLines st (ls1 ++ ls2) =
      match processLines st ls1 with
      | .error e => .error e
      | .ok st1 => processLines st1 ls2 := by
  induction ls1 generalizing st with
  | nil => rfl
  | cons l ls ih =>
    simp only [List.cons_append, processLines]
    cases processMacLine st l with
    | error e => rfl
    | ok st1 => exact ih st1

/-- `recordEntry` on a state whose extended dict ends in the group for
`w` appends the entry to that group. -/
theorem recordEntry_ext (simple : List (PyStr × List PyStr))
    (ext0 : List (PyStr × List (PyStr × PyStr))) {w : PyStr}
    (d : List (PyStr × PyStr)) (m cm : PyStr) (hw : w ∉ keysOf ext0)
    (hm : m ∉ keysOf d) :
    (recordEntry ⟨simple, ext0 ++ [(w, d)]⟩ w m cm).mac_address_list_extended =
      ext0 ++ [(w, d ++ [(m, cm)])] := by
  rw [recordEntry]
  dsimp only
  rw [ensureKey_present _ (by rw [alookup_append_of_not_mem _ hw]; simp [alookup])]
  rw [aupd_append_of_not_mem _ _ hw]
  simp only [aupd, if_pos rfl]
  rw [aset_of_not_mem cm hm]
  simp

/-- `recordEntry` first creates the group when the WiFi name is new. -/
theorem recordEntry_ext_new (simple : List (PyStr × List PyStr))
    (ext0 : List (PyStr × List (PyStr × PyStr))) {w : PyStr} (m cm : PyStr)
    (hw : w ∉ keysOf ext0) :
    (recordEntry ⟨simple, ext0⟩ w m cm).mac_address_list_extended =
      ext0 ++ [(w, [(m, cm)])] := by
  rw [recordEntry]
  dsimp only
  rw [ensureKey_absent _ hw, aupd_append_of_not_mem _ _ hw]
  simp only [aupd, if_pos rfl]
  simp [aset]

/-- Processing the rendered lines of one group extends that group's
entry list, entry by entry. -/
theorem processLines_group (w : PyStr) (hw : goodName w = true)
    (ms : List (PyStr × PyStr)) :
    ∀ (d : List (PyStr × PyStr)) (simple : List (PyStr × List PyStr))
      (ext0 : List (PyStr × List (PyStr × PyStr))),
      w ∉ keysOf ext0 →
      (∀ q ∈ ms, goodName q.1 = true ∧ pyLower q.1 = q.1 ∧ goodComment q.2 = true) →
      (∀ q ∈ ms, q.1 ∉ keysOf d) →
      (keysOf ms).Nodup →
      ∃ simple1,
        processLines ⟨simple, ext0 ++ [(w, d)]⟩
          (ms.map fun q => renderEntryLine w q.1 q.2) =
        .ok ⟨simple1, ext0 ++ [(w, d ++ ms)]⟩ := by
  induction ms with
  | nil =>
    intro d simple ext0 hdis hgood hdkeys hnodup
    exact ⟨simple, by simp [processLines]⟩
  | cons q ms ih =>
    intro d simple ext0 hdis hgood hdkeys hnodup
    obtain ⟨m, cm⟩ := q
    have hgall := hgood (m, cm) (by simp)
    obtain ⟨hgm, hglow, hgc⟩ := hgall
    simp only at hgm hglow hgc
    rw [List.map_cons]
    rw [processLines,
      processMacLine_render ⟨simple, ext0 ++ [(w, d)]⟩ hw hgm hglow hgc]
    dsimp only
    have hext := recordEntry_ext simple ext0 d m cm hdis
      (by have := hdkeys (m, cm) (by simp); simpa using this)
    cases hre2 : recordEntry ⟨simple, ext0 ++ [(w, d)]⟩ w m cm with
    | mk s2 e2 =>
      rw [hre2] at hext
      simp only at hext
      subst hext
      obtain ⟨simple1, hrest⟩ := ih (d ++ [(m, cm)]) s2 ext0 hdis
        (fun q hq => hgood q (by simp [hq]))
        (by
          intro q hq
          have h1 := hdkeys q (by simp [hq])
          have h2 : ¬ q.1 = m := by
            simp only [keysOf, List.map_cons, List.nodup_cons] at hnodup
            intro habs
            exact hnodup.1 (habs ▸ (List.mem_map.mpr ⟨q, hq, rfl⟩))
          intro habs
          rw [keysOf, List.map_append] at habs
          rcases List.mem_append.mp habs with h3 | h3
          · exact h1 h3
          · simp at h3
            exact h2 h3)
        (by
          simp only [keysOf, List.map_cons, List.nodup_cons] at hnodup
          exact hnodup.2)
      refine ⟨simple1, ?_⟩
      rw [hrest]
      simp

/-- Skipping the header: every header line starts with `#`. -/
theorem processLines_header (st : EFGMACFile) :
    processLines st macfileHeaderLines = .ok st := rfl

theorem keysOf_append {b : Type} (l1 l2 : List (PyStr × b)) :
    keysOf (l1 ++ l2) = keysOf l1 ++ keysOf l2 := by
  simp [keysOf]

theorem nodup_append_singleton {a : PyStr} {l : List PyStr}
    (h : l.Nodup) (ha : a ∉ l) : (l ++ [a]).Nodup := by
  induction l with
  | nil => simp
  | cons x r ih =>
    rw [List.cons_append, List.nodup_cons]
    rw [List.nodup_cons] at h
    refine ⟨?_, ih h.2 fun hm => ha (by simp [hm])⟩
    intro hx
    rcases List.mem_append.mp hx with h1 | h1
    · exact h.1 h1
    · simp at h1
      exact ha (by simp [h1])

/-- Processing the rendered lines of a list of groups appends the
groups to the extended dict. -/
theorem processLines_linesOfExt (gs : List (PyStr × List (PyStr × PyStr))) :
    ∀ (ext0 : List (PyStr × List (PyStr × PyStr))) (simple : List (PyStr × List PyStr)),
      (∀ p ∈ gs, p.1 ∉ keysOf ext0) →
      (keysOf gs).Nodup →
      (∀ p ∈ gs, goodName p.1 = true ∧ p.2 ≠ [] ∧ (keysOf p.2).Nodup ∧
        ∀ q ∈ p.2, goodName q.1 = true ∧ pyLower q.1 = q.1 ∧ goodComment q.2 = true) →
      ∃ simple1, processLines ⟨simple, ext0⟩ (linesOfExt gs) =
        .ok ⟨simple1, ext0 ++ gs⟩ := by
  induction gs with
  | nil =>
    intro ext0 simple hdis hnodup hwf
    exact ⟨simple, by simp [linesOfExt, processLines]⟩
  | cons g gs ih =>
    intro ext0 simple hdis hnodup hwf
    obtain ⟨w, ms⟩ := g
    obtain ⟨hgw, hmsne, hmsnodup, hmsgood⟩ := hwf (w, ms) (by simp)
    simp only at hgw hmsne hmsnodup hmsgood
    have hdisw : w ∉ keysOf ext0 := by
      have := hdis (w, ms) (by simp)
      simpa using this
    cases ms with
    | nil => exact absurd rfl hmsne
    | cons q0 ms1 =>
      obtain ⟨m0, c0⟩ := q0
      obtain ⟨hgm0, hglow0, hgc0⟩ := hmsgood (m0, c0) (by simp)
      simp only at hgm0 hglow0 hgc0
      rw [linesOfExt, List.map_cons, List.cons_append, processLines,
        processMacLine_render ⟨simple, ext0⟩ hgw hgm0 hglow0 hgc0]
      dsimp only
      have hext := recordEntry_ext_new simple ext0 m0 c0 hdisw
      cases hre2 : recordEntry ⟨simple, ext0⟩ w m0 c0 with
      | mk s2 e2 =>
        rw [hre2] at hext
        simp only at hext
        subst hext
        rw [processLines_append]
        obtain ⟨s3, hgroup⟩ := processLines_group w hgw ms1 [(m0, c0)] s2 ext0 hdisw
          (fun q hq => hmsgood q (by simp [hq]))
          (by
            intro q hq habs
            simp only [keysOf, List.map_cons, List.nodup_cons] at hmsnodup
            simp only [keysOf, List.map_cons, List.map_nil, List.mem_singleton] at habs
            exact hmsnodup.1 (habs ▸ (List.mem_map.mpr ⟨q, hq, rfl⟩)))
          (by
            simp only [keysOf, List.map_cons, List.nodup_cons] at hmsnodup
            exact hmsnodup.2)
        rw [hgroup]
        dsimp only
        obtain ⟨simple1, hrest⟩ := ih (ext0 ++ [(w, (m0, c0) :: ms1)]) s3
          (by
            intro p hp
            rw [keysOf_append, List.mem_append]
            rintro (h1 | h1)
            · exact hdis p (by simp [hp]) h1
            · simp only [keysOf, List.map_cons, List.map_nil, List.mem_singleton] at h1
              simp only [keysOf, List.map_cons, List.nodup_cons] at hnodup
              exact hnodup.1 (h1 ▸ (List.mem_map.mpr ⟨p, hp, rfl⟩)))
          (by
            simp only [keysOf, List.map_cons, List.nodup_cons] at hnodup
            exact hnodup.2)
          (fun p hp => hwf p (by simp [hp]))
        refine ⟨simple1, ?_⟩
        have hms : ([(m0, c0)] ++ ms1) = (m0, c0) :: ms1 := by simp
        rw [hms, hrest]
        simp

theorem keysOf_aupd {b : Type} (k : PyStr) (f : b → b) (l : List (PyStr × b)) :
    keysOf (aupd k f l) = keysOf l := by
  induction l with
  | nil => rfl
  | cons p r ih =>
    obtain ⟨k1, v1⟩ := p
    by_cases hk : k1 = k
    · simp [aupd, hk, keysOf]
    · simp only [aupd, if_neg hk, keysOf_cons, ih]

theorem mem_aupd {b : Type} {k : PyStr} {f : b → b} {l : List (PyStr × b)}
    {p : PyStr × b} (h : p ∈ aupd k f l) :
    p ∈ l ∨ ∃ v, (k, v) ∈ l ∧ p = (k, f v) := by
  induction l with
  | nil => cases h
  | cons q r ih =>
    obtain ⟨k1, v1⟩ := q
    by_cases hk : k1 = k
    · subst hk
      rw [aupd, if_pos rfl] at h
      rcases List.mem_cons.mp h with rfl | h1
      · exact Or.inr ⟨v1, by simp⟩
      · exact Or.inl (by simp [h1])
    · rw [aupd, if_neg hk] at h
      rcases List.mem_cons.mp h with rfl | h1
      · exact Or.inl (by simp)
      · rcases ih h1 with h2 | ⟨v, hv, rfl⟩
        · exact Or.inl (by simp [h2])
        · exact Or.inr ⟨v, by simp [hv]⟩

theorem mem_aset {b : Type} {k : PyStr} {v : b} {l : List (PyStr × b)}
    {p : PyStr × b} (h : p ∈ aset k v l) : p ∈ l ∨ p = (k, v) := by
  induction l with
  | nil =>
    rw [aset] at h
    rcases List.mem_singleton.mp h with rfl
    exact Or.inr rfl
  | cons q r ih =>
    obtain ⟨k1, v1⟩ := q
    by_cases hk : k1 = k
    · subst hk
      rw [aset, if_pos rfl] at h
      rcases List.mem_cons.mp h with rfl | h1
      · exact Or.inr rfl
      · exact Or.inl (by simp [h1])
    · rw [aset, if_neg hk] at h
      rcases List.mem_cons.mp h with rfl | h1
      · exact Or.inl (by simp)
      · rcases ih h1 with h2 | rfl
        · exact Or.inl (by simp [h2])
        · exact Or.inr rfl

theorem aset_ne_nil {b : Type} (k : PyStr) (v : b) (l : List (PyStr × b)) :
    aset k v l ≠ [] := by
  cases l with
  | nil => simp [aset]
  | cons q r =>
    obtain ⟨k1, v1⟩ := q
    rw [aset]
    split <;> simp

theorem keysOf_aset_of_mem {b : Type} {k : PyStr} (v : b) {l : List (PyStr × b)}
    (h : k ∈ keysOf l) : keysOf (aset k v l) = keysOf l := by
  induction l with
  | nil => cases h
  | cons p r ih =>
    obtain ⟨k1, v1⟩ := p
    by_cases hk1 : k1 = k
    · simp [aset, hk1, keysOf]
    · rw [aset, if_neg hk1, keysOf_cons, keysOf_cons, ih]
      rw [keysOf_cons] at h
      rcases List.mem_cons.mp h with h1 | h1
      · exact absurd h1.symm hk1
      · exact h1

theorem keysOf_aset_nodup {b : Type} {k : PyStr} (v : b) {l : List (PyStr × b)}
    (h : (keysOf l).Nodup) : (keysOf (aset k v l)).Nodup := by
  by_cases hk : k ∈ keysOf l
  · rw [keysOf_aset_of_mem v hk]
    exact h
  · rw [aset_of_not_mem v hk, keysOf_append]
    exact nodup_append_singleton h hk

theorem alookup_isSome_of_mem {b : Type} {k : PyStr} {l : List (PyStr × b)}
    (h : k ∈ keysOf l) : (alookup k l).isSome := by
  induction l with
  | nil => cases h
  | cons p r ih =>
    obtain ⟨k1, v1⟩ := p
    by_cases hk : k1 = k
    · simp [alookup, hk]
    · rw [alookup, if_neg hk]
      apply ih
      rw [keysOf_cons] at h
      rcases List.mem_cons.mp h with h1 | h1
      · exact absurd h1.symm hk
      · exact h1

theorem aupd_forall {b : Type} {P : PyStr × b → Prop} {k : PyStr} {f : b → b}
    {l : List (PyStr × b)}
    (hl : ∀ p ∈ l, P p) (hf : ∀ v, (k, v) ∈ l → P (k, f v)) :
    ∀ p ∈ aupd k f l, P p := by
  induction l with
  | nil => intro p hp; cases hp
  | cons q r ih =>
    obtain ⟨k1, v1⟩ := q
    intro p hp
    by_cases hk : k1 = k
    · subst hk
      rw [aupd, if_pos rfl] at hp
      rcases List.mem_cons.mp hp with h0 | h1
      · subst h0
        exact hf v1 (by simp)
      · exact hl p (by simp [h1])
    · rw [aupd, if_neg hk] at hp
      rcases List.mem_cons.mp hp with h0 | h1
      · subst h0
        exact hl (k1, v1) (by simp)
      · exact ih (fun p2 hp2 => hl p2 (by simp [hp2]))
          (fun v hv => hf v (by simp [hv])) p h1

/-- `add_mac` with good raw fields preserves extended-dict
well-formedness. -/
theorem add_mac_wfExt {st : EFGMACFile} {m w c : PyStr}
    (hwf : WfExt st.mac_address_list_extended)
    (hm : goodName m = true) (hw : goodName w = true) (hc : goodComment c = true) :
    WfExt (st.add_mac m w c).mac_address_list_extended := by
  obtain ⟨hnodup, hall⟩ := hwf
  have hmL : goodName (pyLower m) = true := goodName_pyLower hm
  have hmLfix : pyLower (pyLower m) = pyLower m := pyLower_pyLower m
  rw [EFGMACFile.add_mac]
  dsimp only
  cases hl : alookup w st.mac_address_list_extended with
  | some d =>
    rw [ensureKey_present _ (by rw [hl]; rfl)]
    constructor
    · rw [keysOf_aupd]
      exact hnodup
    · apply aupd_forall hall
      intro v hv
      obtain ⟨-, -, hvnodup, hvall⟩ := hall (w, v) hv
      refine ⟨hw, aset_ne_nil _ _ _, keysOf_aset_nodup _ hvnodup, ?_⟩
      intro q hq
      rcases mem_aset hq with h1 | h1
      · exact hvall q h1
      · subst h1
        exact ⟨hmL, hmLfix, hc⟩
  | none =>
    have hwmem : w ∉ keysOf st.mac_address_list_extended := by
      intro habs
      have := alookup_isSome_of_mem habs
      rw [hl] at this
      cases this
    rw [ensureKey_absent _ hwmem, aupd_append_of_not_mem _ _ hwmem]
    simp only [aupd, if_pos rfl, if_true]
    constructor
    · rw [keysOf_append]
      exact nodup_append_singleton hnodup hwmem
    · intro p hp
      rcases List.mem_append.mp hp with h1 | h1
      · exact hall p h1
      · rw [List.mem_singleton] at h1
        subst h1
        refine ⟨hw, aset_ne_nil _ _ _, keysOf_aset_nodup _ (by simp [keysOf]), ?_⟩
        intro q hq
        rcases mem_aset hq with h2 | h2
        · cases h2
        · subst h2
          exact ⟨hmL, hmLfix, hc⟩

theorem foldl_add_mac_wf (ts : List (PyStr × PyStr × PyStr)) :
    ∀ st : EFGMACFile,
      (∀ t ∈ ts, goodName t.1 = true ∧ goodName t.2.1 = true ∧ goodComment t.2.2 = true) →
      WfExt st.mac_address_list_extended →
      WfExt ((ts.foldl (fun st t => st.add_mac t.1 t.2.1 t.2.2) st).mac_address_list_extended) := by
  induction ts with
  | nil => intro st hg hw; exact hw
  | cons t ts ih =>
    intro st hg hw
    rw [List.foldl_cons]
    obtain ⟨h1, h2, h3⟩ := hg t (by simp)
    exact ih _ (fun q hq => hg q (by simp [hq])) (add_mac_wfExt hw h1 h2 h3)

theorem wfExt_nil : WfExt [] :=
  ⟨by simp [keysOf], by intro p hp; cases hp⟩

theorem line_shape {l : PyStr} (hne : l ≠ []) (hlast : l.getLast? = some '\n')
    (hnl : '\n' ∉ l.dropLast) : ∃ xs, l = xs ++ ['\n'] ∧ '\n' ∉ xs := by
  refine ⟨l.dropLast, ?_, hnl⟩
  have hd := List.dropLast_append_getLast hne
  rw [List.getLast?_eq_getLast l hne] at hlast
  simp only [Option.some.injEq] at hlast
  conv_lhs => rw [← hd]
  rw [hlast]

theorem headerLines_shape : ∀ l ∈ macfileHeaderLines, ∃ xs, l = xs ++ ['\n'] ∧ '\n' ∉ xs := by
  intro l hl
  rw [macfileHeaderLines] at hl
  simp only [List.mem_cons, List.not_mem_nil, or_false] at hl
  rcases hl with rfl | rfl | rfl | rfl | rfl | rfl | rfl | rfl | rfl <;>
    exact line_shape (by decide) (by decide) (by decide)

theorem renderEntryLine_shape {w m c : PyStr} (hw : goodName w = true)
    (hm : goodName m = true) (hc : goodComment c = true) :
    ∃ xs, renderEntryLine w m c = xs ++ ['\n'] ∧ '\n' ∉ xs := by
  refine ⟨pyLower m ++ ';' :: (w ++ "   # ".data ++ c), by rw [renderEntryLine]; simp, ?_⟩
  intro hmem
  rcases List.mem_append.mp hmem with h1 | h1
  · obtain ⟨c0, hc0, he⟩ := List.mem_map.mp h1
    have : c0 = '\n' := (Char.toLower_eq_iff_of_toNat_lt (by decide)).mp he
    exact goodName_no_nl hm c0 hc0 this
  · rcases List.mem_cons.mp h1 with h2 | h2
    · cases h2
    · rcases List.mem_append.mp h2 with h3 | h3
      · rcases List.mem_append.mp h3 with h4 | h4
        · exact goodName_no_nl hw '\n' h4 rfl
        · simp only [List.mem_cons, List.not_mem_nil, or_false] at h4
          rcases h4 with h5 | h5 | h5 | h5 | h5 <;> cases h5
      · exact goodComment_no_nl hc '\n' h3 rfl

theorem linesOfExt_shape {gs : List (PyStr × List (PyStr × PyStr))}
    (hwf : ∀ p ∈ gs, goodName p.1 = true ∧ p.2 ≠ [] ∧ (keysOf p.2).Nodup ∧
      ∀ q ∈ p.2, goodName q.1 = true ∧ pyLower q.1 = q.1 ∧ goodComment q.2 = true) :
    ∀ l ∈ linesOfExt gs, ∃ xs, l = xs ++ ['\n'] ∧ '\n' ∉ xs := by
  induction gs with
  | nil => intro l hl; cases hl
  | cons g gs ih =>
    intro l hl
    obtain ⟨w, ms⟩ := g
    rw [linesOfExt] at hl
    rcases List.mem_append.mp hl with h1 | h1
    · obtain ⟨q, hq, rfl⟩ := List.mem_map.mp h1
      obtain ⟨hgw, -, -, hq2⟩ := hwf (w, ms) (by simp)
      obtain ⟨hqm, hqlow, hqc⟩ := hq2 q hq
      exact renderEntryLine_shape hgw hqm hqc
    · exact ih (fun p hp => hwf p (by simp [hp])) l h1

/-- C7 (amended): for triples whose network and MAC strings contain no
`#`, `;` or newline and no surrounding whitespace, and whose comments
contain no `#` or newline and no surrounding whitespace, adding them
all via `add_mac` (in any order) and reloading the written file
reproduces exactly the `(network, mac) -> comment` mapping of the
store; the header block is skipped by the reload. -/
theorem c7_backup_roundtrip (ts : List (PyStr × PyStr × PyStr))
    (h : ∀ t ∈ ts, goodName t.1 = true ∧ goodName t.2.1 = true ∧ goodComment t.2.2 = true) :
    ∃ st1, process_macfile (write_macfile (addAll ts)) = .ok st1 ∧
      st1.mac_address_list_extended = (addAll ts).mac_address_list_extended := by
  have hwf : WfExt (addAll ts).mac_address_list_extended := by
    rw [addAll]
    exact foldl_add_mac_wf ts ⟨[], []⟩ h wfExt_nil
  have hlines : pyReadlines (write_macfile (addAll ts)) =
      macfileHeaderLines ++ linesOfExt (addAll ts).mac_address_list_extended := by
    rw [write_macfile]
    apply pyReadlines_flatten
    intro l hl
    rcases List.mem_append.mp hl with h1 | h1
    · exact headerLines_shape l h1
    · exact linesOfExt_shape hwf.2 l h1
  rw [process_macfile, hlines, processLines_append, processLines_header]
  dsimp only
  obtain ⟨simple1, hfin⟩ := processLines_linesOfExt
    (addAll ts).mac_address_list_extended [] []
    (by intro p hp h1; cases h1) hwf.1 hwf.2
  refine ⟨⟨simple1, (addAll ts).mac_address_list_extended⟩, ?_, rfl⟩
  rw [hfin]
  simp

/-- Witness for C7 at two concrete triples on two networks. -/
theorem c7_witness :
    ∃ st1, process_macfile (write_macfile (addAll
      [("AA:BB:CC:DD:EE:FF".data, "Guest".data, "John Doe".data),
       ("11:22:33:44:55:66".data, "Staff".data, "Jane Roe".data)])) = .ok st1 ∧
      st1.mac_address_list_extended = (addAll
        [("AA:BB:CC:DD:EE:FF".data, "Guest".data, "John Doe".data),
         ("11:22:33:44:55:66".data, "Staff".data, "Jane Roe".data)]).mac_address_list_extended :=
  c7_backup_roundtrip
    [("AA:BB:CC:DD:EE:FF".data, "Guest".data, "John Doe".data),
     ("11:22:33:44:55:66".data, "Staff".data, "Jane Roe".data)]
    (by decide)

/-- Counterexample to C7 as stated: a network name containing `;`
round-trips to a different mapping — the reload parses the `;` as the
MAC/network separator, so the `(network, mac)` key `("N;M", "aa")`
disappears and the claim's only side condition (comments free of `#`)
does not rule it out. -/
theorem c7_counterexample :
    alookup "aa".data
      ((alookup "N;M".data
        (addAll [("aa".data, "N;M".data, "x".data)]).mac_address_list_extended).getD [])
      = some "x".data ∧
    ∃ st1, process_macfile (write_macfile (addAll [("aa".data, "N;M".data, "x".data)])) =
        .ok st1 ∧
      alookup "aa".data
        ((alookup "N;M".data st1.mac_address_list_extended).getD []) = none :=
  ⟨rfl, ⟨⟨[("N".data, ["aa".data])], [("N".data, [("aa".data, "x".data)])]⟩, rfl, rfl⟩⟩
